import Mathlib

/-!
Shallow embedding of the survival-analysis core of this repository
(`nonparametric.py` and `metrics.py`) and proofs about it.

Modelling conventions:
* numpy float arrays are embedded as `List ℚ` (the programs only perform
  field arithmetic and comparisons on them); boolean arrays as `List Bool`.
* `numpy.argsort` followed by fancy indexing through the resulting `order`
  array is embedded by stably sorting the tuples of parallel-array entries
  by the sort key (`List.insertionSort`, which is a stable sort, hence
  extensionally equal to numpy's stable mergesort on the same key).
* the float machine-epsilon tolerance used by `predict_proba` for its
  "exact match" test is embedded as exact equality on `ℚ`.
* fallible code (Python `raise`) is embedded with `Except String`.
* input validation performed by the external collaborators `check_array`,
  `check_consistent_length` and `check_y_survival` (util.py / sklearn, not
  part of the two source files) is treated as a precondition following
  spec section 6; the two checks of `check_y_survival` that claims depend
  on (non-empty query arrays, at least one event unless
  `allow_all_censored`) are modelled explicitly where noted.
-/

set_option maxRecDepth 4000

/-- Stored time points of a fitted estimator: the finite observed times
plus the `-inf` sentinel that `fit` prepends. -/
inductive TimeVal where
  | negInf
  | fin (t : ℚ)
deriving DecidableEq

/-- `x < t` for a stored time `x` and a finite query time `t`. -/
def TimeVal.ltq : TimeVal → ℚ → Bool
  | .negInf, _ => true
  | .fin s, t => decide (s < t)

/-- `x ≤ t` for a stored time `x` and a finite query time `t`. -/
def TimeVal.leq : TimeVal → ℚ → Bool
  | .negInf, _ => true
  | .fin s, t => decide (s ≤ t)

/-- Strict order on stored time points (`-inf` below every finite time). -/
def TimeVal.sLt : TimeVal → TimeVal → Prop
  | .negInf, .negInf => False
  | .negInf, .fin _ => True
  | .fin _, .negInf => False
  | .fin a, .fin b => a < b

/-- Sort key used by `_compute_counts`: order samples `(event, time)` by
ascending time (`np.argsort(time, kind="mergesort")`). -/
def leT (a b : Bool × ℚ) : Prop := a.2 ≤ b.2

instance : DecidableRel leT := fun a b => inferInstanceAs (Decidable (a.2 ≤ b.2))

instance : IsTotal (Bool × ℚ) leT := ⟨fun a b => le_total a.2 b.2⟩

instance : IsTrans (Bool × ℚ) leT := ⟨fun _ _ _ h h2 => le_trans h h2⟩

/-- Stable sort of the samples by time (`order = np.argsort(time, kind="mergesort")`
composed with indexing through `order`). -/
def sortByTime (l : List (Bool × ℚ)) : List (Bool × ℚ) := List.insertionSort leT l

/-- The grouping loop of `_compute_counts`: one entry
`(time, count_event, count)` per maximal run of equal times in the sorted
sample list. -/
def groupCounts : List (Bool × ℚ) → List (ℚ × ℕ × ℕ)
  | [] => []
  | (e, t) :: rest =>
    (t, ((if e then 1 else 0) + ((rest.takeWhile (fun p => p.2 == t)).filter
            (fun p => p.1)).length),
      (1 + (rest.takeWhile (fun p => p.2 == t)).length))
      :: groupCounts (rest.dropWhile (fun p => p.2 == t))
termination_by l => l.length
decreasing_by
  simp only [List.length_cons]
  exact Nat.lt_succ_of_le ((List.dropWhile_sublist _).length_le)

/-- `n_at_risk = n_samples - np.cumsum(total_count offset by one)`:
the at-risk count before each unique time. -/
def atRiskList (n : ℕ) : List ℕ → List ℕ
  | [] => []
  | c :: cs => n :: atRiskList (n - c) cs

/-- `_compute_counts(event, time)`: unique ascending times, number of events
at each time, number of samples at risk at each time.  The `order` argument
of the Python function is always computed internally (`order=None` path). -/
def compute_counts (event : List Bool) (time : List ℚ) :
    List ℚ × List ℕ × List ℕ :=
  let g := groupCounts (sortByTime (event.zip time))
  (g.map (fun p => p.1), g.map (fun p => p.2.1),
    atRiskList event.length (g.map (fun p => p.2.2)))

/-- `np.cumprod` (with running accumulator `a`). -/
def cumprodAux (a : ℚ) : List ℚ → List ℚ
  | [] => []
  | x :: xs => (a * x) :: cumprodAux (a * x) xs

/-- `np.cumprod`. -/
def cumprod (l : List ℚ) : List ℚ := cumprodAux 1 l

/-- `np.cumsum` (with running accumulator `a`). -/
def cumsumAux (a : ℚ) : List ℚ → List ℚ
  | [] => []
  | x :: xs => (a + x) :: cumsumAux (a + x) xs

/-- `np.cumsum`. -/
def cumsum (l : List ℚ) : List ℚ := cumsumAux 0 l

/-- The per-time Kaplan-Meier factors `values = 1 - n_events / n_at_risk`. -/
def kmFactors (event : List Bool) (time_exit : List ℚ) : List ℚ :=
  ((compute_counts event time_exit).2.1.zip
    (compute_counts event time_exit).2.2).map
    (fun p => 1 - (p.1 : ℚ) / (p.2 : ℚ))

/-- `kaplan_meier_estimator(event, time_exit, time_min)` for the
`time_enter=None` (no left truncation) path: per-time factors
`1 - n_events/n_at_risk`; when `time_min` is given the factors are masked
with `uniq_times >= time_min` BEFORE `np.cumprod` is applied, exactly as in
the source (`np.compress` on line 198-199 precedes `np.cumprod` on line 201). -/
def kaplan_meier_estimator (event : List Bool) (time_exit : List ℚ)
    (time_min : Option ℚ) : List ℚ × List ℚ :=
  match time_min with
  | none => ((compute_counts event time_exit).1,
      cumprod (kmFactors event time_exit))
  | some m =>
    let kept := ((compute_counts event time_exit).1.zip
      (kmFactors event time_exit)).filter (fun p => decide (m ≤ p.1))
    (kept.map (fun p => p.1), cumprod (kept.map (fun p => p.2)))

/-- `nelson_aalen_estimator(event, time)`: cumulative sum of
`n_events/n_at_risk` over the unique times. -/
def nelson_aalen_estimator (event : List Bool) (time : List ℚ) :
    List ℚ × List ℚ :=
  let c := compute_counts event time
  (c.1, cumsum ((c.2.1.zip c.2.2).map (fun p => (p.1 : ℚ) / (p.2 : ℚ))))

/-- Sorted list of rationals (`np.sort`). -/
def sortRats (l : List ℚ) : List ℚ := List.insertionSort (fun a b => a ≤ b) l

/-- Remove adjacent duplicates of a (sorted) list. -/
def dedupSorted : List ℚ → List ℚ
  | [] => []
  | [x] => [x]
  | x :: y :: rest =>
    if x == y then dedupSorted (y :: rest) else x :: dedupSorted (y :: rest)

/-- `np.unique`: sorted unique values. -/
def uniqueSorted (l : List ℚ) : List ℚ := dedupSorted (sortRats l)

/-- Size of the risk set of `_compute_counts_truncated` at time `t` (for the
unique times after the first): `len(setdiff1d(order_enter[:idx_enter],
order_exit[:idx_exit]))` where `idx_enter` counts entries `<= t` and
`idx_exit` counts exits `< t`; since every sample with exit `< t` also has
entry `<= t`, this is the number of samples with `entry <= t` and not
`exit < t`. -/
def riskSetSize (time_enter time_exit : List ℚ) (t : ℚ) : ℕ :=
  ((time_enter.zip time_exit).filter
    (fun p => decide (p.1 ≤ t) && !decide (p.2 < t))).length

/-- Number of events exactly at time `t` (`s_time_exit[k] == ti` scan). -/
def eventsAt (event : List Bool) (time_exit : List ℚ) (t : ℚ) : ℕ :=
  ((event.zip time_exit).filter (fun p => p.1 && (p.2 == t))).length

/-- `_compute_counts_truncated(event, time_enter, time_exit)`: left-truncated
risk-set table over the unique values of `time_enter ++ time_exit`.  At the
first unique time the risk set is everyone already entered
(`total_counts[0] = idx_enter`) and the event count is forced to `0`
("except people die on the day they enter"). -/
def compute_counts_truncated (event : List Bool)
    (time_enter time_exit : List ℚ) :
    Except String (List ℚ × List ℕ × List ℕ) :=
  if (time_enter.zip time_exit).any (fun p => decide (p.2 < p.1)) then
    .error "exit time must be larger start time for all samples"
  else
    match uniqueSorted (time_enter ++ time_exit) with
    | [] => .ok ([], [], [])
    | t0 :: rest =>
      .ok (t0 :: rest,
        0 :: rest.map (fun t => eventsAt event time_exit t),
        (time_enter.filter (fun s => decide (s ≤ t0))).length
          :: rest.map (fun t => riskSetSize time_enter time_exit t))

/-- State of a fitted `SurvivalFunctionEstimator` /
`CensoringDistributionEstimator`: the `unique_time_` and `prob_` arrays. -/
structure FittedState where
  unique_time : List TimeVal
  prob : List ℚ
deriving DecidableEq

/-- `self.unique_time_[-1]`. -/
def lastTime (st : FittedState) : TimeVal := st.unique_time.getLastD .negInf

/-- `self.prob_[-1]`. -/
def lastProb (st : FittedState) : ℚ := st.prob.getLastD 1

/-- One right-continuous step lookup of `predict_proba` for a query `t` that
does not extend beyond the last stored time: `idx = np.searchsorted
(unique_time_, t)` (= number of stored times `< t` on the sorted array),
exact-match test (float-eps tolerance embedded as equality), and the
`idx -= 1` shift for non-exact matches.  Python's negative index `-1`
(wrap-around to the LAST element of `prob_`) is modelled explicitly. -/
def stepLookup (ut : List TimeVal) (prob : List ℚ) (t : ℚ) : ℚ :=
  let idx := (ut.takeWhile (fun x => TimeVal.ltq x t)).length
  if ut.get? idx = some (.fin t) then prob.getD idx 0
  else if idx = 0 then prob.getLastD 0
  else prob.getD (idx - 1) 0

/-- The value `predict_proba` assigns to one query time: zero beyond the
last stored time, otherwise the step lookup. -/
def predictProbaPoint (st : FittedState) (t : ℚ) : ℚ :=
  if TimeVal.ltq (lastTime st) t then 0
  else stepLookup st.unique_time st.prob t

/-- `SurvivalFunctionEstimator.predict_proba(time)`.  The leading emptiness
check is modelled from the spec: section 6's input validator (sklearn
`check_array`, `ensure_min_samples=1`, not in src/) rejects an empty query
array.  The `ValueError` is raised when the estimate at the last time point
is non-zero and some query time lies beyond it. -/
def predict_proba (st : FittedState) (time : List ℚ) :
    Except String (List ℚ) :=
  if time.isEmpty then .error "Found array with 0 samples"
  else if 0 < lastProb st ∧ time.any (fun t => TimeVal.ltq (lastTime st) t) then
    .error "time must be smaller than largest observed time point"
  else
    .ok (time.map (predictProbaPoint st))

/-- `SurvivalFunctionEstimator.fit(y)`: Kaplan-Meier on the raw event
indicator, with the sentinel point `(-inf, 1.0)` prepended. -/
def SurvivalFunctionEstimator.fit (event : List Bool) (time : List ℚ) :
    FittedState :=
  let km := kaplan_meier_estimator event time none
  ⟨.negInf :: km.1.map .fin, 1 :: km.2⟩

/-- `CensoringDistributionEstimator.fit(y)`: Kaplan-Meier on the NEGATED
event indicator with the sentinel prepended, short-circuited when every
sample has an event: in that branch `unique_time_ = np.unique(time)` and
`prob_` is all ones, and NO sentinel is prepended.  The `check_y_survival`
validation (at least one event) is a precondition (spec section 6). -/
def CensoringDistributionEstimator.fit (event : List Bool) (time : List ℚ) :
    FittedState :=
  if event.all (fun e => e) then
    ⟨(uniqueSorted time).map .fin, (uniqueSorted time).map (fun _ => (1 : ℚ))⟩
  else
    let km := kaplan_meier_estimator (event.map (fun e => !e)) time none
    ⟨.negInf :: km.1.map .fin, 1 :: km.2⟩

/-- `time[event]`: the times of the samples that had an event. -/
def eventTimes (event : List Bool) (time : List ℚ) : List ℚ :=
  ((event.zip time).filter (fun p => p.1)).map (fun p => p.2)

/-- Scatter `weights[event] = 1.0 / Ghat` into a zero vector: censored
samples get weight `0`, event samples consume the `Ghat` entries in order. -/
def fillWeights : List Bool → List ℚ → List ℚ
  | [], _ => []
  | false :: es, gs => 0 :: fillWeights es gs
  | true :: es, [] => 0 :: fillWeights es []
  | true :: es, g :: gs => 1 / g :: fillWeights es gs

/-- `CensoringDistributionEstimator.predict_ipcw(y)`.  The leading
all-censored check is modelled from the spec: `check_y_survival(y)` with
the default `allow_all_censored=False` (util.py, not in src/) rejects a
sample set with no event. -/
def CensoringDistributionEstimator.predict_ipcw (st : FittedState)
    (event : List Bool) (time : List ℚ) : Except String (List ℚ) :=
  if !event.any (fun e => e) then .error "All samples are censored"
  else
    match predict_proba st (eventTimes event time) with
    | .error e => .error e
    | .ok ghat =>
      if ghat.any (fun g => g == 0) then
        .error "censoring survival function is zero at one or more time points"
      else
        .ok (fillWeights event ghat)

/-- One sample row of `_estimate_concordance_index`, i.e. the tuple of
parallel-array entries `(event, time, estimate, weight)` that the Python
code reads through `order[...]`. -/
abbrev Sample4 := Bool × ℚ × ℚ × ℚ

/-- Time of a sample row. -/
def s4time (p : Sample4) : ℚ := p.2.1

/-- Risk estimate of a sample row. -/
def s4est (p : Sample4) : ℚ := p.2.2.1

/-- Weight of a sample row. -/
def s4w (p : Sample4) : ℚ := p.2.2.2

/-- Sort key of `order = numpy.argsort(event_time)` lifted to sample rows. -/
def leTQ (a b : Sample4) : Prop := s4time a ≤ s4time b

instance : DecidableRel leTQ := fun a b =>
  inferInstanceAs (Decidable (s4time a ≤ s4time b))

instance : IsTotal Sample4 leTQ := ⟨fun a b => le_total (s4time a) (s4time b)⟩

instance : IsTrans Sample4 leTQ := ⟨fun _ _ _ h h2 => le_trans h h2⟩

/-- Samples sorted by ascending time, i.e. `X[order]` for every parallel
array `X` of `_estimate_concordance_index`. -/
def sortSamples (l : List Sample4) : List Sample4 := List.insertionSort leTQ l

/-- `n_con` of one event sample: comparable estimates that are strictly
smaller and not within the tie tolerance (`con[~ties].sum()`). -/
def nCon (tol est_i : ℚ) (ests : List ℚ) : ℕ :=
  (ests.filter (fun e => !decide (|e - est_i| ≤ tol) && decide (e < est_i))).length

/-- `n_ties` of one event sample: comparable estimates within the tie
tolerance (`numpy.absolute(est - est_i) <= tied_tol`). -/
def nTies (tol est_i : ℚ) (ests : List ℚ) : ℕ :=
  (ests.filter (fun e => decide (|e - est_i| ≤ tol))).length

/-- Accumulator of `_estimate_concordance_index`. -/
structure ConcordanceStats where
  numerator : ℚ
  denominator : ℚ
  concordant : ℕ
  discordant : ℕ
  tied_risk : ℕ
  tied_time : ℕ
deriving DecidableEq

/-- The pair-accumulation loop of `_get_comparable` +
`_estimate_concordance_index` over the time-sorted sample rows: for each
maximal block of tied times, every event sample of the block is compared
against the censored samples of the same block and every sample strictly
after the block; `tied_time` adds the number of same-time censored samples
once per event sample of the block. -/
def concordanceLoop (tol : ℚ) : List Sample4 → ConcordanceStats
  | [] => ⟨0, 0, 0, 0, 0, 0⟩
  | x :: rest =>
    let block := x :: rest.takeWhile (fun p => s4time p == s4time x)
    let after := rest.dropWhile (fun p => s4time p == s4time x)
    let censEsts := (block.filter (fun p => !p.1)).map s4est
    let compEsts := censEsts ++ after.map s4est
    let evs := block.filter (fun p => p.1)
    let s := concordanceLoop tol after
    { numerator := s.numerator + (evs.map (fun p =>
        s4w p * (nCon tol (s4est p) compEsts : ℚ)
          + 1 / 2 * s4w p * (nTies tol (s4est p) compEsts : ℚ))).sum,
      denominator := s.denominator
        + (evs.map (fun p => s4w p * (compEsts.length : ℚ))).sum,
      concordant := s.concordant
        + (evs.map (fun p => nCon tol (s4est p) compEsts)).sum,
      discordant := s.discordant + (evs.map (fun p =>
        compEsts.length - nCon tol (s4est p) compEsts
          - nTies tol (s4est p) compEsts)).sum,
      tied_risk := s.tied_risk
        + (evs.map (fun p => nTies tol (s4est p) compEsts)).sum,
      tied_time := s.tied_time + evs.length * censEsts.length }
termination_by l => l.length
decreasing_by
  simp only [List.length_cons]
  exact Nat.lt_succ_of_le ((List.dropWhile_sublist _).length_le)

/-- `_estimate_concordance_index(event_indicator, event_time, estimate,
weights, tied_tol)`.  The final `cindex = numerator / denominator` is a
Python float division, which raises `ZeroDivisionError` when the
denominator is zero; that case is an explicit error. -/
def estimate_concordance_index (event : List Bool) (time est w : List ℚ)
    (tol : ℚ) : Except String (ℚ × ℕ × ℕ × ℕ × ℕ) :=
  let s := concordanceLoop tol (sortSamples (event.zip (time.zip (est.zip w))))
  if s.denominator = 0 then .error "float division by zero"
  else .ok (s.numerator / s.denominator,
    s.concordant, s.discordant, s.tied_risk, s.tied_time)

/-- `concordance_index_censored(event_indicator, event_time, estimate,
tied_tol)`: the `_check_inputs` validation followed by the shared
accumulation with all-ones weights. -/
def concordance_index_censored (event : List Bool) (time est : List ℚ)
    (tol : ℚ) : Except String (ℚ × ℕ × ℕ × ℕ × ℕ) :=
  if event.length ≠ time.length ∨ time.length ≠ est.length then
    .error "Found input variables with inconsistent numbers of samples"
  else if time.length < 2 then .error "Need a minimum of two samples"
  else if !event.any (fun e => e) then .error "All samples are censored"
  else estimate_concordance_index event time est (est.map (fun _ => 1)) tol

/-- `ipcw[mask] = ipcw_test; ipcw[~mask] = 0` for the truncation branch of
`concordance_index_ipcw`: walk the test times, consuming one weight for
each sample with `time < tau`. -/
def scatterWeights (tau : ℚ) : List ℚ → List ℚ → List ℚ
  | [], _ => []
  | t :: ts, gs =>
    if t < tau then
      match gs with
      | [] => 0 :: scatterWeights tau ts []
      | g :: gs2 => g :: scatterWeights tau ts gs2
    else 0 :: scatterWeights tau ts gs

/-- `concordance_index_ipcw(survival_train, survival_test, estimate, tau,
tied_tol)`.  The leading all-censored check on the test set is modelled
from the spec: `check_y_survival(survival_test)` with the default
`allow_all_censored=False` (util.py, not in src/); `_check_estimate` then
rejects an estimate whose length differs from `test_time`.  The weights
passed to the shared accumulation are the SQUARED inverse censoring
probabilities. -/
def concordance_index_ipcw (train_event : List Bool) (train_time : List ℚ)
    (test_event : List Bool) (test_time : List ℚ) (estimate : List ℚ)
    (tau : Option ℚ) (tol : ℚ) : Except String (ℚ × ℕ × ℕ × ℕ × ℕ) :=
  if !test_event.any (fun e => e) then .error "All samples are censored"
  else if estimate.length ≠ test_time.length then
    .error "Found input variables with inconsistent numbers of samples"
  else
    let masked := match tau with
      | none => test_event.zip test_time
      | some t => (test_event.zip test_time).filter (fun p => decide (p.2 < t))
    let cens := CensoringDistributionEstimator.fit train_event train_time
    match CensoringDistributionEstimator.predict_ipcw cens
        (masked.map (fun p => p.1)) (masked.map (fun p => p.2)) with
    | .error e => .error e
    | .ok ipcw_test =>
      let ipcw := match tau with
        | none => ipcw_test
        | some t => scatterWeights t test_time ipcw_test
      estimate_concordance_index test_event test_time estimate
        (ipcw.map (fun x => x * x)) tol

/-- `True` exactly when an `Except` value is an error. -/
def exceptIsError {α : Type} (x : Except String α) : Bool :=
  match x with
  | .error _ => true
  | .ok _ => false

instance {ε α : Type} [DecidableEq ε] [DecidableEq α] :
    DecidableEq (Except ε α) := by
  intro a b
  cases a <;> cases b
  case error.error x y => exact decidable_of_iff (x = y) (by simp)
  case ok.ok x y => exact decidable_of_iff (x = y) (by simp)
  all_goals exact isFalse (by simp)

/-! ### Basic properties of the risk-set counting tables -/

theorem groupCounts_le (l : List (Bool × ℚ)) :
    ∀ p ∈ groupCounts l, p.2.1 ≤ p.2.2 ∧ 1 ≤ p.2.2 := by
  induction l using groupCounts.induct with
  | case1 => intro p hp; simp [groupCounts] at hp
  | case2 e t rest ih =>
    intro p hp
    rw [groupCounts] at hp
    rcases List.mem_cons.mp hp with h | h
    · subst h
      refine ⟨?_, Nat.le_add_right _ _⟩
      have hf : ((rest.takeWhile (fun p => p.2 == t)).filter
          (fun p => p.1)).length ≤ (rest.takeWhile (fun p => p.2 == t)).length :=
        List.length_filter_le _ _
      cases e <;> simp <;> omega
    · exact ih p h

theorem groupCounts_sum (l : List (Bool × ℚ)) :
    ((groupCounts l).map (fun p => p.2.2)).sum = l.length := by
  induction l using groupCounts.induct with
  | case1 => simp [groupCounts]
  | case2 e t rest ih =>
    rw [groupCounts]
    simp only [List.map_cons, List.sum_cons, ih, List.length_cons]
    have := congrArg List.length
      (List.takeWhile_append_dropWhile (fun p => p.2 == t) rest)
    simp only [List.length_append] at this
    omega

theorem atRiskList_length (n : ℕ) (cs : List ℕ) :
    (atRiskList n cs).length = cs.length := by
  induction cs generalizing n with
  | nil => rfl
  | cons c cs ih => simp [atRiskList, ih]

theorem atRiskList_ge_one (cs : List ℕ) (m : ℕ) (h : ∀ c ∈ cs, 1 ≤ c) :
    ∀ r ∈ atRiskList (cs.sum + m) cs, 1 ≤ r := by
  induction cs generalizing m with
  | nil => intro r hr; simp [atRiskList] at hr
  | cons c cs ih =>
    intro r hr
    simp only [atRiskList, List.sum_cons, List.mem_cons] at hr
    rcases hr with h1 | h1
    · have : 1 ≤ c := h c (List.mem_cons_self c cs)
      omega
    · have heq : c + cs.sum + m - c = cs.sum + m := by omega
      rw [heq] at h1
      exact ih m (fun x hx => h x (List.mem_cons_of_mem c hx)) r h1

theorem atRiskList_zip_bound (g : List (ℚ × ℕ × ℕ)) (m : ℕ)
    (h : ∀ p ∈ g, p.2.1 ≤ p.2.2 ∧ 1 ≤ p.2.2) :
    ∀ q ∈ (g.map (fun p => p.2.1)).zip
        (atRiskList ((g.map (fun p => p.2.2)).sum + m)
          (g.map (fun p => p.2.2))),
      q.1 ≤ q.2 ∧ 1 ≤ q.2 := by
  induction g generalizing m with
  | nil => intro q hq; simp [atRiskList] at hq
  | cons p g ih =>
    intro q hq
    have hp := h p (List.mem_cons_self p g)
    simp only [List.map_cons, List.sum_cons, atRiskList, List.zip_cons_cons,
      List.mem_cons] at hq
    rcases hq with h1 | h1
    · subst h1; constructor <;> simp <;> omega
    · have heq : p.2.2 + (g.map (fun p => p.2.2)).sum + m - p.2.2
          = (g.map (fun p => p.2.2)).sum + m := by omega
      rw [heq] at h1
      exact ih m (fun x hx => h x (List.mem_cons_of_mem p hx)) q h1

theorem compute_counts_zip_bound (event : List Bool) (time : List ℚ) :
    ∀ q ∈ (compute_counts event time).2.1.zip (compute_counts event time).2.2,
      q.1 ≤ q.2 ∧ 1 ≤ q.2 := by
  intro q hq
  set g := groupCounts (sortByTime (event.zip time)) with hg
  have hsum : ((g.map (fun p => p.2.2)).sum) ≤ event.length := by
    rw [hg, groupCounts_sum]
    unfold sortByTime
    rw [List.length_insertionSort, List.length_zip]
    exact min_le_left _ _
  have hn : event.length = (g.map (fun p => p.2.2)).sum
      + (event.length - (g.map (fun p => p.2.2)).sum) := by omega
  simp only [compute_counts] at hq
  rw [← hg, hn] at hq
  exact atRiskList_zip_bound g _ (groupCounts_le _) q hq

/-- C8's untruncated half, as a reusable lemma. -/
theorem compute_counts_at_risk (event : List Bool) (time : List ℚ) :
    ∀ r ∈ (compute_counts event time).2.2, 1 ≤ r := by
  intro r hr
  set g := groupCounts (sortByTime (event.zip time)) with hg
  have hsum : ((g.map (fun p => p.2.2)).sum) ≤ event.length := by
    rw [hg, groupCounts_sum]
    unfold sortByTime
    rw [List.length_insertionSort, List.length_zip]
    exact min_le_left _ _
  have hn : event.length = (g.map (fun p => p.2.2)).sum
      + (event.length - (g.map (fun p => p.2.2)).sum) := by omega
  simp only [compute_counts] at hr
  rw [← hg, hn] at hr
  refine atRiskList_ge_one _ _ ?_ r hr
  intro c hc
  rcases List.mem_map.mp hc with ⟨p, hp, hpc⟩
  exact hpc ▸ (groupCounts_le _ p hp).2

theorem kmFactors_bound (event : List Bool) (time : List ℚ) :
    ∀ v ∈ kmFactors event time, 0 ≤ v ∧ v ≤ 1 := by
  intro v hv
  rcases List.mem_map.mp hv with ⟨p, hp, hpv⟩
  have hb := compute_counts_zip_bound event time p hp
  have h2 : (0 : ℚ) < (p.2 : ℚ) := by exact_mod_cast Nat.lt_of_lt_of_le Nat.zero_lt_one hb.2
  have h1 : (p.1 : ℚ) ≤ (p.2 : ℚ) := by exact_mod_cast hb.1
  have h0 : (0 : ℚ) ≤ (p.1 : ℚ) := by positivity
  constructor
  · rw [← hpv]
    have : (p.1 : ℚ) / (p.2 : ℚ) ≤ 1 := by
      rw [div_le_one h2]; exact h1
    linarith
  · rw [← hpv]
    have : 0 ≤ (p.1 : ℚ) / (p.2 : ℚ) := by positivity
    linarith

/-! ### Monotonicity of cumulative products and sums -/

theorem cumprodAux_bound (l : List ℚ) (a : ℚ) (ha : 0 ≤ a)
    (hl : ∀ x ∈ l, 0 ≤ x ∧ x ≤ 1) :
    (∀ y ∈ cumprodAux a l, 0 ≤ y ∧ y ≤ a) ∧
      List.Chain' (fun p q => q ≤ p) (cumprodAux a l) := by
  induction l generalizing a with
  | nil => exact ⟨by intro y hy; simp [cumprodAux] at hy, List.chain'_nil⟩
  | cons x xs ih =>
    have hx := hl x (List.mem_cons_self x xs)
    have hb0 : 0 ≤ a * x := mul_nonneg ha hx.1
    have hba : a * x ≤ a := mul_le_of_le_one_right ha hx.2
    have ihb := ih (a * x) hb0 (fun y hy => hl y (List.mem_cons_of_mem x hy))
    constructor
    · intro y hy
      simp only [cumprodAux, List.mem_cons] at hy
      rcases hy with h1 | h1
      · exact h1 ▸ ⟨hb0, hba⟩
      · exact ⟨(ihb.1 y h1).1, le_trans (ihb.1 y h1).2 hba⟩
    · rw [cumprodAux]
      refine List.chain'_cons'.mpr ⟨?_, ihb.2⟩
      intro y hy
      have : y ∈ cumprodAux (a * x) xs := List.mem_of_mem_head? hy
      exact (ihb.1 y this).2

theorem cumsumAux_bound (l : List ℚ) (a : ℚ) (hl : ∀ x ∈ l, 0 ≤ x) :
    (∀ y ∈ cumsumAux a l, a ≤ y) ∧
      List.Chain' (fun p q => p ≤ q) (cumsumAux a l) := by
  induction l generalizing a with
  | nil => exact ⟨by intro y hy; simp [cumsumAux] at hy, List.chain'_nil⟩
  | cons x xs ih =>
    have hx := hl x (List.mem_cons_self x xs)
    have hba : a ≤ a + x := by linarith
    have ihb := ih (a + x) (fun y hy => hl y (List.mem_cons_of_mem x hy))
    constructor
    · intro y hy
      simp only [cumsumAux, List.mem_cons] at hy
      rcases hy with h1 | h1
      · exact h1 ▸ hba
      · exact le_trans hba (ihb.1 y h1)
    · rw [cumsumAux]
      refine List.chain'_cons'.mpr ⟨?_, ihb.2⟩
      intro y hy
      have : y ∈ cumsumAux (a + x) xs := List.mem_of_mem_head? hy
      exact ihb.1 y this

/-- The survival-probability list of `kaplan_meier_estimator` (for any
`time_min`) is within `[0,1]` and non-increasing. -/
theorem km_prob_bound (event : List Bool) (time : List ℚ)
    (time_min : Option ℚ) :
    (∀ y ∈ (kaplan_meier_estimator event time time_min).2, 0 ≤ y ∧ y ≤ 1) ∧
      List.Chain' (fun p q => q ≤ p)
        (kaplan_meier_estimator event time time_min).2 := by
  cases time_min with
  | none =>
    have := cumprodAux_bound (kmFactors event time) 1 zero_le_one
      (kmFactors_bound event time)
    exact ⟨this.1, this.2⟩
  | some m =>
    have hmem : ∀ v ∈ (((compute_counts event time).1.zip
        (kmFactors event time)).filter
          (fun p => decide (m ≤ p.1))).map (fun p => p.2),
        0 ≤ v ∧ v ≤ 1 := by
      intro v hv
      rcases List.mem_map.mp hv with ⟨p, hp, hpv⟩
      have hz := List.of_mem_zip (List.mem_of_mem_filter hp)
      exact hpv ▸ kmFactors_bound event time p.2 hz.2
    have := cumprodAux_bound _ 1 zero_le_one hmem
    exact ⟨this.1, this.2⟩

/-! ### Helpers for `uniqueSorted` and zipped pairs -/

theorem dedupSorted_sublist (l : List ℚ) : List.Sublist (dedupSorted l) l := by
  induction l using dedupSorted.induct with
  | case1 => simp [dedupSorted]
  | case2 x => simp [dedupSorted]
  | case3 x y rest heq ih =>
    rw [dedupSorted, if_pos heq]
    exact ih.cons x
  | case4 x y rest heq ih =>
    rw [dedupSorted, if_neg heq]
    exact ih.cons₂ x

theorem mem_dedupSorted (l : List ℚ) (a : ℚ) (h : a ∈ l) : a ∈ dedupSorted l := by
  induction l using dedupSorted.induct with
  | case1 => simp at h
  | case2 x => simpa [dedupSorted] using h
  | case3 x y rest heq ih =>
    rw [dedupSorted, if_pos heq]
    rcases List.mem_cons.mp h with h1 | h1
    · apply ih
      rw [h1, beq_iff_eq.mp heq]
      exact List.mem_cons_self y rest
    · exact ih h1
  | case4 x y rest heq ih =>
    rw [dedupSorted, if_neg heq]
    rcases List.mem_cons.mp h with h1 | h1
    · exact h1 ▸ List.mem_cons_self x _
    · exact List.mem_cons_of_mem x (ih h1)

theorem mem_uniqueSorted (l : List ℚ) (a : ℚ) : a ∈ uniqueSorted l ↔ a ∈ l := by
  constructor
  · intro h
    have h2 := (dedupSorted_sublist (sortRats l)).subset h
    exact (List.mem_insertionSort _).mp h2
  · intro h
    exact mem_dedupSorted _ a ((List.mem_insertionSort _).mpr h)

theorem uniqueSorted_sorted (l : List ℚ) :
    (uniqueSorted l).Pairwise (fun a b => a ≤ b) := by
  have h1 : (sortRats l).Pairwise (fun a b : ℚ => a ≤ b) :=
    List.sorted_insertionSort _ l
  exact h1.sublist (dedupSorted_sublist _)

theorem mem_zip_of_right {α β : Type} (l₁ : List α) (l₂ : List β) (b : β)
    (hlen : l₁.length = l₂.length) (h : b ∈ l₂) :
    ∃ a, (a, b) ∈ l₁.zip l₂ := by
  induction l₂ generalizing l₁ with
  | nil => simp at h
  | cons y ys ih =>
    cases l₁ with
    | nil => simp at hlen
    | cons x xs =>
      rcases List.mem_cons.mp h with h1 | h1
      · exact ⟨x, by simp [h1]⟩
      · rcases ih xs (by simpa using hlen) h1 with ⟨a, ha⟩
        exact ⟨a, List.mem_cons_of_mem _ ha⟩

theorem mem_zip_of_left {α β : Type} (l₁ : List α) (l₂ : List β) (a : α)
    (hlen : l₁.length = l₂.length) (h : a ∈ l₁) :
    ∃ b, (a, b) ∈ l₁.zip l₂ := by
  induction l₁ generalizing l₂ with
  | nil => simp at h
  | cons x xs ih =>
    cases l₂ with
    | nil => simp at hlen
    | cons y ys =>
      rcases List.mem_cons.mp h with h1 | h1
      · exact ⟨y, by simp [h1]⟩
      · rcases ih ys (by simpa using hlen) h1 with ⟨b, hb⟩
        exact ⟨b, List.mem_cons_of_mem _ hb⟩

/-- C8's truncated half, as a reusable lemma: when
`_compute_counts_truncated` succeeds, every at-risk count is at least 1. -/
theorem compute_counts_truncated_at_risk (event : List Bool)
    (time_enter time_exit : List ℚ) (out : List ℚ × List ℕ × List ℕ)
    (hlen : time_enter.length = time_exit.length)
    (hok : compute_counts_truncated event time_enter time_exit = .ok out) :
    ∀ r ∈ out.2.2, 1 ≤ r := by
  intro r hr
  rw [compute_counts_truncated] at hok
  by_cases hviol : (time_enter.zip time_exit).any (fun p => decide (p.2 < p.1))
  · rw [if_pos hviol] at hok; exact absurd hok (by simp)
  · rw [if_neg hviol] at hok
    have hfalse : (time_enter.zip time_exit).any
        (fun p => decide (p.2 < p.1)) = false := by
      rw [← Bool.not_eq_true]; exact hviol
    have hnoviol : ∀ p ∈ time_enter.zip time_exit, p.1 ≤ p.2 := by
      intro p hp
      have := List.any_eq_false.mp hfalse p hp
      simp at this
      linarith
    rcases hu : uniqueSorted (time_enter ++ time_exit) with _ | ⟨t0, rest⟩
    · rw [hu] at hok
      simp only [Except.ok.injEq] at hok
      rw [← hok] at hr
      simp at hr
    · rw [hu] at hok
      simp only [Except.ok.injEq] at hok
      rw [← hok] at hr
      simp only [List.mem_cons] at hr
      rcases hr with h1 | h1
      · -- first unique time: total_counts[0] = number of entries <= t0
        subst h1
        have ht0 : t0 ∈ time_enter ++ time_exit := by
          have : t0 ∈ uniqueSorted (time_enter ++ time_exit) := by
            rw [hu]; exact List.mem_cons_self _ _
          exact (mem_uniqueSorted _ _).mp this
        rcases List.mem_append.mp ht0 with hmem | hmem
        · have : t0 ∈ time_enter.filter (fun s => decide (s ≤ t0)) :=
            List.mem_filter.mpr ⟨hmem, by simp⟩
          exact List.length_pos_of_mem this
        · rcases mem_zip_of_right time_enter time_exit t0 hlen hmem with ⟨a, ha⟩
          have hale : a ≤ t0 := hnoviol (a, t0) ha
          have : a ∈ time_enter.filter (fun s => decide (s ≤ t0)) :=
            List.mem_filter.mpr ⟨(List.of_mem_zip ha).1, by simpa⟩
          exact List.length_pos_of_mem this
      · -- later unique times: the risk set contains the sample contributing t
        rcases List.mem_map.mp h1 with ⟨t, htmem, hts⟩
        have ht : t ∈ time_enter ++ time_exit := by
          have : t ∈ uniqueSorted (time_enter ++ time_exit) := by
            rw [hu]; exact List.mem_cons_of_mem _ htmem
          exact (mem_uniqueSorted _ _).mp this
        rw [← hts]
        unfold riskSetSize
        rcases List.mem_append.mp ht with hmem | hmem
        · rcases mem_zip_of_left time_enter time_exit t hlen hmem with ⟨b, hb⟩
          have htb : t ≤ b := hnoviol (t, b) hb
          have : (t, b) ∈ (time_enter.zip time_exit).filter
              (fun p => decide (p.1 ≤ t) && !decide (p.2 < t)) := by
            refine List.mem_filter.mpr ⟨hb, ?_⟩
            simp only [Bool.and_eq_true, decide_eq_true_eq, Bool.not_eq_true']
            exact ⟨le_refl t, by simp; linarith⟩
          exact List.length_pos_of_mem this
        · rcases mem_zip_of_right time_enter time_exit t hlen hmem with ⟨a, ha⟩
          have hat : a ≤ t := hnoviol (a, t) ha
          have : (a, t) ∈ (time_enter.zip time_exit).filter
              (fun p => decide (p.1 ≤ t) && !decide (p.2 < t)) := by
            refine List.mem_filter.mpr ⟨ha, ?_⟩
            simp only [Bool.and_eq_true, decide_eq_true_eq, Bool.not_eq_true']
            exact ⟨hat, by simp⟩
          exact List.length_pos_of_mem this

/-- C3: for every valid input (boolean events, at least one sample), the
Kaplan-Meier survival values are a non-increasing sequence with every value
in `[0, 1]`, and the Nelson-Aalen cumulative-hazard values are a
non-decreasing sequence with every value nonnegative. -/
theorem claim_C3 (event : List Bool) (time : List ℚ) (time_min : Option ℚ)
    (hlen : event.length = time.length) (hpos : 0 < event.length) :
    (List.Chain' (fun p q => q ≤ p)
        (kaplan_meier_estimator event time time_min).2 ∧
      ∀ y ∈ (kaplan_meier_estimator event time time_min).2, 0 ≤ y ∧ y ≤ 1) ∧
    (List.Chain' (fun p q => p ≤ q) (nelson_aalen_estimator event time).2 ∧
      ∀ y ∈ (nelson_aalen_estimator event time).2, 0 ≤ y) := by
  refine ⟨⟨(km_prob_bound event time time_min).2,
    (km_prob_bound event time time_min).1⟩, ?_, ?_⟩
  · have h := cumsumAux_bound (((compute_counts event time).2.1.zip
      (compute_counts event time).2.2).map
        (fun p => (p.1 : ℚ) / (p.2 : ℚ))) 0 ?_
    · exact h.2
    · intro x hx
      rcases List.mem_map.mp hx with ⟨p, _, hpv⟩
      rw [← hpv]; positivity
  · intro y hy
    have h := cumsumAux_bound (((compute_counts event time).2.1.zip
      (compute_counts event time).2.2).map
        (fun p => (p.1 : ℚ) / (p.2 : ℚ))) 0 ?_
    · exact h.1 y hy
    · intro x hx
      rcases List.mem_map.mp hx with ⟨p, _, hpv⟩
      rw [← hpv]; positivity

/-- Witness for C3 at a concrete input. -/
theorem claim_C3_witness :
    ([true, false].length = ([1, 2] : List ℚ).length ∧
      0 < [true, false].length) ∧
    (List.Chain' (fun p q => q ≤ p)
        (kaplan_meier_estimator [true, false] [1, 2] none).2 ∧
      ∀ y ∈ (kaplan_meier_estimator [true, false] [1, 2] none).2,
        0 ≤ y ∧ y ≤ 1) ∧
    (List.Chain' (fun p q => p ≤ q)
        (nelson_aalen_estimator [true, false] [1, 2]).2 ∧
      ∀ y ∈ (nelson_aalen_estimator [true, false] [1, 2]).2, 0 ≤ y) :=
  ⟨⟨by decide, by decide⟩,
    claim_C3 [true, false] [1, 2] none (by decide) (by decide)⟩

/-- C8: every at-risk count produced by either risk-set counting variant
(`_compute_counts`, and `_compute_counts_truncated` whenever it succeeds on
consistent-length input) is at least one, so the divisions
`n_events / n_at_risk` of the Kaplan-Meier and Nelson-Aalen estimators
never divide by zero. -/
theorem claim_C8 :
    (∀ (event : List Bool) (time : List ℚ),
      ∀ r ∈ (compute_counts event time).2.2, 1 ≤ r) ∧
    (∀ (event : List Bool) (time_enter time_exit : List ℚ)
      (out : List ℚ × List ℕ × List ℕ),
      time_enter.length = time_exit.length →
      compute_counts_truncated event time_enter time_exit = .ok out →
      ∀ r ∈ out.2.2, 1 ≤ r) :=
  ⟨compute_counts_at_risk, compute_counts_truncated_at_risk⟩

/-- Witness for C8 at concrete inputs for both counting variants. -/
theorem claim_C8_witness :
    (2 ∈ (compute_counts [true, false] [1, 2]).2.2 ∧ 1 ≤ 2) ∧
    (compute_counts_truncated [true, true] [0, 1] [2, 3]
        = .ok ([0, 1, 2, 3], [0, 0, 1, 1], [1, 2, 2, 1]) ∧ (1 : ℕ) ≤ 2) := by
  have hcc : (compute_counts [true, false] [1, 2]).2.2 = [2, 1] := by
    simp [compute_counts, groupCounts, sortByTime, List.insertionSort,
      List.orderedInsert, leT, atRiskList]
  have hmem : 2 ∈ (compute_counts [true, false] [1, 2]).2.2 := by
    rw [hcc]; exact List.mem_cons_self _ _
  have hok : compute_counts_truncated [true, true] [0, 1] [2, 3]
      = .ok ([0, 1, 2, 3], [0, 0, 1, 1], [1, 2, 2, 1]) := by decide
  exact ⟨⟨hmem, claim_C8.1 [true, false] [1, 2] 2 hmem⟩,
    ⟨hok, claim_C8.2 [true, true] [0, 1] [2, 3] _ (by decide) hok 2 (by decide)⟩⟩

/-! ### Sortedness of the unique-time table -/

theorem dropWhile_head_false {α : Type} (p : α → Bool) (l : List α) (x : α)
    (xs : List α) (h : l.dropWhile p = x :: xs) : p x = false := by
  induction l with
  | nil => simp [List.dropWhile] at h
  | cons a as ih =>
    rw [List.dropWhile_cons] at h
    by_cases hp : p a
    · rw [if_pos hp] at h; exact ih h
    · rw [if_neg hp] at h
      have : a = x := (List.cons.injEq _ _ _ _ ▸ h).1
      rw [← this]
      exact Bool.eq_false_iff.mpr hp

theorem groupCounts_times_mem (l : List (Bool × ℚ)) :
    ∀ p ∈ groupCounts l, p.1 ∈ l.map (fun q => q.2) := by
  induction l using groupCounts.induct with
  | case1 => intro p hp; simp [groupCounts] at hp
  | case2 e t rest ih =>
    intro p hp
    rw [groupCounts] at hp
    rcases List.mem_cons.mp hp with h1 | h1
    · rw [h1]; exact List.mem_cons_self _ _
    · have := ih p h1
      have hsub : List.Sublist ((rest.dropWhile (fun p => p.2 == t)).map
          (fun q => q.2)) (rest.map (fun q => q.2)) :=
        (List.dropWhile_sublist _).map _
      exact List.mem_cons_of_mem _ (hsub.subset this)

theorem groupCounts_times_sorted (l : List (Bool × ℚ)) (h : l.Pairwise leT) :
    ((groupCounts l).map (fun p => p.1)).Pairwise (fun a b => a < b) := by
  induction l using groupCounts.induct with
  | case1 => simp [groupCounts]
  | case2 e t rest ih =>
    rw [groupCounts]
    simp only [List.map_cons]
    have hrest : rest.Pairwise leT := (List.pairwise_cons.mp h).2
    have hge : ∀ q ∈ rest, t ≤ q.2 := fun q hq =>
      (List.pairwise_cons.mp h).1 q hq
    have hrest2 : (rest.dropWhile (fun p => p.2 == t)).Pairwise leT :=
      hrest.sublist (List.dropWhile_sublist _)
    refine List.pairwise_cons.mpr ⟨?_, ih hrest2⟩
    have hall : ∀ q ∈ rest.dropWhile (fun p => p.2 == t), t < q.2 := by
      intro q hq
      rcases hd : rest.dropWhile (fun p => p.2 == t) with _ | ⟨h2, t2⟩
      · rw [hd] at hq; simp at hq
      · rw [hd] at hq
        have hh2ne : (fun p : Bool × ℚ => p.2 == t) h2 = false :=
          dropWhile_head_false _ rest h2 t2 hd
        have hh2mem : h2 ∈ rest :=
          (List.dropWhile_sublist _).subset (hd ▸ List.mem_cons_self _ _)
        have hh2 : t < h2.2 := by
          rcases lt_or_eq_of_le (hge h2 hh2mem) with hlt | heq
          · exact hlt
          · exfalso
            have hh2ne2 : (h2.2 == t) = false := hh2ne
            rw [← heq] at hh2ne2
            simp at hh2ne2
        rcases List.mem_cons.mp hq with h1 | h1
        · exact h1 ▸ hh2
        · have hp2 : (h2 :: t2).Pairwise leT := hd ▸ hrest2
          have : leT h2 q := (List.pairwise_cons.mp hp2).1 q h1
          exact lt_of_lt_of_le hh2 this
    intro s hs
    rcases List.mem_map.mp hs with ⟨p, hp, hps⟩
    rcases List.mem_map.mp (groupCounts_times_mem _ p hp) with ⟨q, hq, hqs⟩
    rw [← hps, ← hqs]
    exact hall q hq

/-- The unique times returned by `_compute_counts` are strictly increasing. -/
theorem compute_counts_times_sorted (event : List Bool) (time : List ℚ) :
    (compute_counts event time).1.Pairwise (fun a b => a < b) := by
  have hs : (sortByTime (event.zip time)).Pairwise leT :=
    List.sorted_insertionSort leT (event.zip time)
  exact groupCounts_times_sorted _ hs

theorem atRiskList_len (n : ℕ) (cs : List ℕ) :
    (atRiskList n cs).length = cs.length := atRiskList_length n cs

theorem kmFactors_length (event : List Bool) (time : List ℚ) :
    (kmFactors event time).length = (compute_counts event time).1.length := by
  unfold kmFactors compute_counts
  simp [atRiskList_length]

/-! ### C2: the `time_min` restriction renormalizes the curve -/

theorem cumprodAux_scale (l : List ℚ) (a b : ℚ) :
    cumprodAux (a * b) l = (cumprodAux b l).map (fun x => a * x) := by
  induction l generalizing b with
  | nil => rfl
  | cons x xs ih =>
    simp only [cumprodAux, List.map_cons, mul_assoc]
    exact List.cons_eq_cons.mpr ⟨rfl, ih (b * x)⟩

theorem map_mul_getD (l : List ℚ) (a : ℚ) (i : ℕ) :
    (l.map (fun x => a * x)).getD i 0 = a * l.getD i 0 := by
  induction l generalizing i with
  | nil => simp
  | cons x xs ih =>
    cases i with
    | zero => simp
    | succ k => simpa using ih k

theorem km_restrict_core (ts : List ℚ) (vs : List ℚ) (m : ℚ)
    (hsort : ts.Pairwise (fun a b => a ≤ b)) (hlen : ts.length = vs.length)
    (hb : ∀ v ∈ vs, 0 ≤ v ∧ v ≤ 1) :
    ∃ (j : ℕ) (c : ℚ), 0 ≤ c ∧ c ≤ 1 ∧
      ((ts.zip vs).filter (fun p => decide (m ≤ p.1))).map (fun p => p.1)
        = ts.drop j ∧
      ∀ k, (cumprod vs).getD (j + k) 0
        = c * (cumprod (((ts.zip vs).filter
            (fun p => decide (m ≤ p.1))).map (fun p => p.2))).getD k 0 := by
  induction ts generalizing vs with
  | nil =>
    have hvs : vs = [] := List.length_eq_zero.mp hlen.symm
    subst hvs
    exact ⟨0, 1, zero_le_one, le_refl 1, by simp, by simp [cumprod, cumprodAux]⟩
  | cons t ts ih =>
    cases vs with
    | nil => simp at hlen
    | cons v vs =>
      have hlen2 : ts.length = vs.length := by simpa using hlen
      have hv := hb v (List.mem_cons_self v vs)
      have hbtail : ∀ x ∈ vs, 0 ≤ x ∧ x ≤ 1 :=
        fun x hx => hb x (List.mem_cons_of_mem v hx)
      have hsort2 : ts.Pairwise (fun a b : ℚ => a ≤ b) :=
        (List.pairwise_cons.mp hsort).2
      by_cases hm : m ≤ t
      · -- head time is kept, and by sortedness so is everything after it
        refine ⟨0, 1, zero_le_one, le_refl 1, ?_, ?_⟩
        · have hkeep : ((t, v) :: ts.zip vs).filter
              (fun p => decide (m ≤ p.1)) = (t, v) :: ts.zip vs := by
            apply List.filter_eq_self.mpr
            intro p hp
            rcases List.mem_cons.mp hp with h1 | h1
            · rw [h1]; simpa using hm
            · have hts : p.1 ∈ ts := (List.of_mem_zip h1).1
              have : t ≤ p.1 := (List.pairwise_cons.mp hsort).1 p.1 hts
              simp only [decide_eq_true_eq]
              linarith
          rw [List.zip_cons_cons, hkeep, List.drop_zero]
          exact List.map_fst_zip _ _ (le_of_eq hlen)
        · intro k
          have hkeep : ((t, v) :: ts.zip vs).filter
              (fun p => decide (m ≤ p.1)) = (t, v) :: ts.zip vs := by
            apply List.filter_eq_self.mpr
            intro p hp
            rcases List.mem_cons.mp hp with h1 | h1
            · rw [h1]; simpa using hm
            · have hts : p.1 ∈ ts := (List.of_mem_zip h1).1
              have : t ≤ p.1 := (List.pairwise_cons.mp hsort).1 p.1 hts
              simp only [decide_eq_true_eq]
              linarith
          rw [List.zip_cons_cons, hkeep]
          have hsnd : ((t, v) :: ts.zip vs).map (fun p => p.2) = v :: vs := by
            have := List.map_snd_zip (t :: ts) (v :: vs) (le_of_eq hlen.symm)
            simpa using this
          rw [hsnd, zero_add, one_mul]
      · -- head time is below m: dropped from the restricted product
        rcases ih vs hsort2 hlen2 hbtail with ⟨j, c, hc0, hc1, hts, hvals⟩
        refine ⟨j + 1, v * c, mul_nonneg hv.1 hc0,
          mul_le_one₀ hv.2 hc0 hc1, ?_, ?_⟩
        · have hdrop : ((t, v) :: ts.zip vs).filter
              (fun p => decide (m ≤ p.1)) = (ts.zip vs).filter
                (fun p => decide (m ≤ p.1)) := by
            rw [List.filter_cons]
            simp only [decide_eq_true_eq]
            rw [if_neg (by simpa using hm)]
          rw [List.zip_cons_cons, hdrop, List.drop_succ_cons]
          exact hts
        · intro k
          have hdrop : ((t, v) :: ts.zip vs).filter
              (fun p => decide (m ≤ p.1)) = (ts.zip vs).filter
                (fun p => decide (m ≤ p.1)) := by
            rw [List.filter_cons]
            simp only [decide_eq_true_eq]
            rw [if_neg (by simpa using hm)]
          rw [List.zip_cons_cons, hdrop]
          have hcp : cumprod (v :: vs) = (v : ℚ) :: cumprodAux v vs := by
            simp [cumprod, cumprodAux]
          have hshift : (cumprod (v :: vs)).getD (j + 1 + k) 0
              = (cumprodAux v vs).getD (j + k) 0 := by
            rw [hcp]
            have : j + 1 + k = (j + k) + 1 := by omega
            rw [this]
            rfl
          rw [hshift]
          have hscale : cumprodAux v vs = (cumprod vs).map (fun x => v * x) := by
            have := cumprodAux_scale vs v 1
            rw [mul_one] at this
            exact this
          rw [hscale, map_mul_getD, hvals k, ← mul_assoc]

/-- C2 counterexample: `event=[T,T,T]`, `time=[1,2,3]`, `time_min=2`.  The
restricted call returns survival value `1/2` at time `2`, but the
unrestricted call returns `1/3` at time `2`: the values are NOT equal, the
restricted curve is the renormalized (conditional) one. -/
theorem claim_C2_counterexample :
    kaplan_meier_estimator [true, true, true] [1, 2, 3] (some 2)
        = ([2, 3], [1/2, 0]) ∧
    kaplan_meier_estimator [true, true, true] [1, 2, 3] none
        = ([1, 2, 3], [2/3, 1/3, 0]) ∧
    ¬ ((1 : ℚ)/2 = 1/3) := by
  refine ⟨?_, ?_, by norm_num⟩ <;>
    · simp [kaplan_meier_estimator, kmFactors, compute_counts, groupCounts,
        sortByTime, List.insertionSort, List.orderedInsert, leT, atRiskList,
        cumprod, cumprodAux]
      norm_num

/-- C2 amended: with `time_min` the returned times are the unique times
`≥ time_min` (a suffix of the unrestricted unique times, dropped by some
`j`), and the unrestricted curve equals the restricted curve multiplied by
the constant `c` (the product of the Kaplan-Meier factors at the unique
times before `time_min`): the restricted curve is the conditional survival
renormalized by `c`, not the plain restriction of the unrestricted curve. -/
theorem claim_C2 (event : List Bool) (time : List ℚ) (m : ℚ) :
    ∃ (j : ℕ) (c : ℚ), 0 ≤ c ∧ c ≤ 1 ∧
      (kaplan_meier_estimator event time (some m)).1
        = (kaplan_meier_estimator event time none).1.drop j ∧
      ∀ k, (kaplan_meier_estimator event time none).2.getD (j + k) 0
        = c * ((kaplan_meier_estimator event time (some m)).2.getD k 0) := by
  have hsort : (compute_counts event time).1.Pairwise (fun a b : ℚ => a ≤ b) :=
    (compute_counts_times_sorted event time).imp (fun h => le_of_lt h)
  have hlen : (compute_counts event time).1.length
      = (kmFactors event time).length := (kmFactors_length event time).symm
  rcases km_restrict_core (compute_counts event time).1 (kmFactors event time)
    m hsort hlen (kmFactors_bound event time) with ⟨j, c, hc0, hc1, hts, hvals⟩
  exact ⟨j, c, hc0, hc1, hts, hvals⟩

/-! ### C9: the sentinel point of fitted states -/

/-- C9 counterexample: fitting the censoring estimator on an all-events
sample set takes the shortcut branch, which stores the plain unique
observed times with NO `(-inf, 1)` sentinel: the first stored time is the
finite time `1`, not `-inf`. -/
theorem claim_C9_counterexample :
    (CensoringDistributionEstimator.fit [true, true] [1, 2]).unique_time.head?
      ≠ some TimeVal.negInf := by decide

/-- C9 amended: `SurvivalFunctionEstimator.fit` always stores the sentinel
`(-inf, 1)` first; `CensoringDistributionEstimator.fit` does so exactly when
some sample is censored, while in the all-events shortcut it stores the
plain unique observed times with probability one everywhere and no
sentinel. -/
theorem claim_C9 :
    (∀ (event : List Bool) (time : List ℚ),
      (SurvivalFunctionEstimator.fit event time).unique_time.head?
          = some TimeVal.negInf ∧
        (SurvivalFunctionEstimator.fit event time).prob.head? = some 1) ∧
    (∀ (event : List Bool) (time : List ℚ),
      event.all (fun e => e) = false →
      (CensoringDistributionEstimator.fit event time).unique_time.head?
          = some TimeVal.negInf ∧
        (CensoringDistributionEstimator.fit event time).prob.head? = some 1) ∧
    (∀ (event : List Bool) (time : List ℚ),
      event.all (fun e => e) = true →
      (CensoringDistributionEstimator.fit event time).unique_time
          = (uniqueSorted time).map TimeVal.fin ∧
        (CensoringDistributionEstimator.fit event time).prob
          = (uniqueSorted time).map (fun _ => (1 : ℚ))) := by
  refine ⟨fun ev tm => ⟨rfl, rfl⟩, ?_, ?_⟩
  · intro ev tm h
    unfold CensoringDistributionEstimator.fit
    rw [if_neg (by simp [h])]
    exact ⟨rfl, rfl⟩
  · intro ev tm h
    unfold CensoringDistributionEstimator.fit
    rw [if_pos h]
    exact ⟨rfl, rfl⟩

/-- Witness for C9 at concrete inputs hitting all three branches. -/
theorem claim_C9_witness :
    (SurvivalFunctionEstimator.fit [true, false] [1, 2]).unique_time.head?
        = some TimeVal.negInf ∧
    (CensoringDistributionEstimator.fit [true, false] [1, 2]).unique_time.head?
        = some TimeVal.negInf ∧
    (CensoringDistributionEstimator.fit [true, true] [1, 2]).unique_time
        = [TimeVal.fin 1, TimeVal.fin 2] := by
  refine ⟨(claim_C9.1 [true, false] [1, 2]).1,
    (claim_C9.2.1 [true, false] [1, 2] (by decide)).1, ?_⟩
  have h := (claim_C9.2.2 [true, true] [1, 2] (by decide)).1
  rw [h]; decide

/-! ### Lookup helpers for all-ones fitted states (C6/C7) -/

theorem pairwise_le_getLastD (l : List ℚ) (d : ℚ)
    (h : l.Pairwise (fun a b => a ≤ b)) :
    ∀ x ∈ l, x ≤ l.getLastD d := by
  induction l generalizing d with
  | nil => intro x hx; simp at hx
  | cons a as ih =>
    intro x hx
    rw [List.getLastD_cons]
    rcases List.mem_cons.mp hx with h1 | h1
    · subst h1
      rcases List.mem_cons.mp (List.getLastD_mem_cons as x) with hm | hm
      · exact le_of_eq hm.symm
      · exact (List.pairwise_cons.mp h).1 _ hm
    · exact ih a ((List.pairwise_cons.mp h).2) x h1

theorem getD_map_const {α : Type} (l : List α) (c : ℚ) (i : ℕ)
    (hi : i < l.length) :
    (l.map (fun _ => c)).getD i 0 = c := by
  rw [List.map_const']
  induction i generalizing l with
  | zero => cases l with
    | nil => simp at hi
    | cons a as => rfl
  | succ k ih =>
    cases l with
    | nil => simp at hi
    | cons a as =>
      have : k < as.length := by simpa using hi
      have h2 := ih as this
      simpa [List.replicate] using h2

theorem getLastD_map_const {α : Type} (l : List α) (c : ℚ) (h : l ≠ []) :
    (l.map (fun _ => c)).getLastD 0 = c := by
  cases l with
  | nil => exact absurd rfl h
  | cons a as =>
    rw [List.map_cons, List.getLastD_cons]
    rcases List.mem_cons.mp
        (List.getLastD_mem_cons (as.map (fun _ => c)) c) with hm | hm
    · exact hm
    · rcases List.mem_map.mp hm with ⟨x, _, hx⟩
      exact hx.symm

/-- On a state whose probabilities are all one, any in-range step lookup
returns one. -/
theorem stepLookup_const_one (ut : List TimeVal) (t : ℚ) (hne : ut ≠ []) :
    stepLookup ut (ut.map (fun _ => (1 : ℚ))) t = 1 := by
  unfold stepLookup
  by_cases hex : ut.get? ((ut.takeWhile (fun x => TimeVal.ltq x t)).length)
      = some (TimeVal.fin t)
  · rw [if_pos hex]
    have hlt : (ut.takeWhile (fun x => TimeVal.ltq x t)).length < ut.length := by
      by_contra hge
      rw [List.get?_eq_none.mpr (Nat.le_of_not_lt hge)] at hex
      exact absurd hex (by simp)
    exact getD_map_const ut 1 _ hlt
  · rw [if_neg hex]
    by_cases hz : (ut.takeWhile (fun x => TimeVal.ltq x t)).length = 0
    · rw [if_pos hz]
      exact getLastD_map_const ut 1 hne
    · rw [if_neg hz]
      have hle : (ut.takeWhile (fun x => TimeVal.ltq x t)).length ≤ ut.length :=
        (List.takeWhile_sublist _).length_le
      exact getD_map_const ut 1 _ (by omega)

theorem fillWeights_ones (ev : List Bool) (gs : List ℚ)
    (hev : ∀ b ∈ ev, b = true) (hgs : ∀ g ∈ gs, g = 1)
    (hlen : ev.length = gs.length) :
    fillWeights ev gs = ev.map (fun _ => (1 : ℚ)) := by
  induction ev generalizing gs with
  | nil => rfl
  | cons b es ih =>
    have hb : b = true := hev b (List.mem_cons_self b es)
    subst hb
    cases gs with
    | nil => simp at hlen
    | cons g gs2 =>
      have hg : g = 1 := hgs g (List.mem_cons_self g gs2)
      rw [fillWeights, hg]
      simp only [List.map_cons]
      rw [ih gs2 (fun x hx => hev x (List.mem_cons_of_mem _ hx))
        (fun x hx => hgs x (List.mem_cons_of_mem _ hx)) (by simpa using hlen)]
      norm_num

/-- Key lemma for C6/C7: when the censoring estimator is fitted on
all-events training data and queried with all-events test data whose times
stay within the training follow-up, `predict_ipcw` returns all-ones
weights. -/
theorem predict_ipcw_all_events (train_event : List Bool)
    (train_time : List ℚ) (ev : List Bool) (tm : List ℚ)
    (htrain : train_event.all (fun e => e) = true) (htrne : train_time ≠ [])
    (hev : ∀ b ∈ ev, b = true) (hne : ev ≠ [])
    (hlen : ev.length = tm.length)
    (hrange : ∀ t ∈ tm, ∃ s ∈ train_time, t ≤ s) :
    CensoringDistributionEstimator.predict_ipcw
      (CensoringDistributionEstimator.fit train_event train_time) ev tm
        = .ok (ev.map (fun _ => (1 : ℚ))) := by
  set ut := uniqueSorted train_time with hut
  have hst : CensoringDistributionEstimator.fit train_event train_time
      = ⟨ut.map .fin, ut.map (fun _ => (1 : ℚ))⟩ := by
    unfold CensoringDistributionEstimator.fit
    rw [if_pos htrain]
  have hutne : ut ≠ [] := by
    rcases List.exists_mem_of_ne_nil train_time htrne with ⟨s, hs⟩
    have : s ∈ ut := (mem_uniqueSorted train_time s).mpr hs
    exact List.ne_nil_of_mem this
  have htmne : tm ≠ [] := by
    intro hnil
    rw [hnil] at hlen
    exact hne (List.length_eq_zero.mp (by simpa using hlen))
  -- the times of the event samples are exactly `tm`
  have het : eventTimes ev tm = tm := by
    unfold eventTimes
    have hf : (ev.zip tm).filter (fun p => p.1) = ev.zip tm := by
      apply List.filter_eq_self.mpr
      intro p hp
      have := hev p.1 (List.of_mem_zip hp).1
      simpa using this
    rw [hf]
    exact List.map_snd_zip ev tm (le_of_eq hlen.symm)
  -- last stored time is the max of the unique training times
  have hlast : lastTime ⟨ut.map .fin, ut.map (fun _ => (1 : ℚ))⟩
      = TimeVal.fin (ut.getLastD 0) := by
    show (ut.map TimeVal.fin).getLastD TimeVal.negInf
      = TimeVal.fin (ut.getLastD 0)
    cases hu : ut with
    | nil => exact absurd hu hutne
    | cons a as =>
      rw [List.map_cons, List.getLastD_cons, List.getLastD_cons]
      exact List.getLastD_map TimeVal.fin as a
  -- no query time of `tm` extends beyond that maximum
  have hpoint : ∀ t ∈ tm,
      TimeVal.ltq (lastTime ⟨ut.map .fin, ut.map (fun _ => (1 : ℚ))⟩) t
        = false := by
    intro t ht
    rw [hlast]
    show decide (ut.getLastD 0 < t) = false
    rcases hrange t ht with ⟨s, hs, hts⟩
    have hsut : s ∈ ut := (mem_uniqueSorted _ _).mpr hs
    have hsl := pairwise_le_getLastD ut 0 (uniqueSorted_sorted train_time) s hsut
    simp only [decide_eq_false_iff_not, not_lt]
    linarith
  have hpp : predict_proba ⟨ut.map .fin, ut.map (fun _ => (1 : ℚ))⟩
      (eventTimes ev tm) = .ok (tm.map (fun _ => (1 : ℚ))) := by
    rw [het]
    unfold predict_proba
    have hnoext : tm.any
        (fun t => TimeVal.ltq
          (lastTime ⟨ut.map .fin, ut.map (fun _ => (1 : ℚ))⟩) t) = false :=
      List.any_eq_false.mpr (fun t ht => by rw [hpoint t ht]; exact Bool.false_ne_true)
    rw [if_neg (by simp [List.isEmpty_iff]; exact htmne)]
    rw [if_neg (by
      rintro ⟨-, h2⟩
      rw [hnoext] at h2
      exact Bool.false_ne_true h2)]
    congr 1
    apply List.map_congr_left
    intro t ht
    unfold predictProbaPoint
    rw [hpoint t ht]
    simp only [Bool.false_eq_true, if_false]
    show stepLookup (ut.map TimeVal.fin)
      (ut.map (fun _ => (1 : ℚ))) t = 1
    have hprob : ut.map (fun _ => (1 : ℚ))
        = (ut.map TimeVal.fin).map (fun _ => (1 : ℚ)) := by
      rw [List.map_map]
      rfl
    rw [hprob]
    exact stepLookup_const_one (ut.map TimeVal.fin) t
      (by simpa using hutne)
  have hany : ev.any (fun e => e) = true := by
    rcases List.exists_mem_of_ne_nil ev hne with ⟨b, hb⟩
    exact List.any_eq_true.mpr ⟨b, hb, by rw [hev b hb]⟩
  unfold CensoringDistributionEstimator.predict_ipcw
  rw [hst, if_neg (by simp [hany]), hpp]
  show (if (tm.map (fun _ => (1 : ℚ))).any (fun g => g == 0) then
      Except.error
        "censoring survival function is zero at one or more time points"
    else Except.ok (fillWeights ev (tm.map (fun _ => (1 : ℚ)))))
    = Except.ok (ev.map (fun _ => (1 : ℚ)))
  have hz : (tm.map (fun _ => (1 : ℚ))).any (fun g => g == 0) = false := by
    apply List.any_eq_false.mpr
    intro g hg
    rcases List.mem_map.mp hg with ⟨x, _, hx⟩
    rw [← hx]
    norm_num
  rw [hz]
  simp only [Bool.false_eq_true, if_false, Except.ok.injEq]
  exact fillWeights_ones ev (tm.map (fun _ => (1 : ℚ)))
    hev (fun g hg => by rcases List.mem_map.mp hg with ⟨x, _, hx⟩; exact hx.symm)
    (by simpa using hlen)

theorem map_fst_zip_eq {α β : Type} (l₁ : List α) (l₂ : List β)
    (h : l₁.length = l₂.length) : (l₁.zip l₂).map (fun p => p.1) = l₁ := by
  induction l₁ generalizing l₂ with
  | nil => rfl
  | cons x xs ih =>
    cases l₂ with
    | nil => simp at h
    | cons y ys => simp [ih ys (by simpa using h)]

theorem map_snd_zip_eq {α β : Type} (l₁ : List α) (l₂ : List β)
    (h : l₁.length = l₂.length) : (l₁.zip l₂).map (fun p => p.2) = l₂ := by
  induction l₁ generalizing l₂ with
  | nil => cases l₂ with
    | nil => rfl
    | cons y ys => simp at h
  | cons x xs ih =>
    cases l₂ with
    | nil => simp at h
    | cons y ys => simp [ih ys (by simpa using h)]

/-- C6: fitting the censoring-distribution estimator on an all-events sample
set and querying `predict_ipcw` on that same sample set yields the all-ones
weight vector. -/
theorem claim_C6 (event : List Bool) (time : List ℚ)
    (hev : ∀ b ∈ event, b = true) (hne : event ≠ [])
    (hlen : event.length = time.length) :
    CensoringDistributionEstimator.predict_ipcw
      (CensoringDistributionEstimator.fit event time) event time
        = .ok (event.map (fun _ => (1 : ℚ))) := by
  have htne : time ≠ [] := by
    intro h
    rw [h] at hlen
    exact hne (List.length_eq_zero.mp (by simpa using hlen))
  exact predict_ipcw_all_events event time event time
    (List.all_eq_true.mpr (fun b hb => by rw [hev b hb])) htne hev hne hlen
    (fun t ht => ⟨t, ht, le_refl t⟩)

/-- Witness for C6 at a concrete all-events sample set. -/
theorem claim_C6_witness :
    CensoringDistributionEstimator.predict_ipcw
      (CensoringDistributionEstimator.fit [true, true] [1, 2]) [true, true]
        [1, 2] = .ok [1, 1] := by
  have h := claim_C6 [true, true] [1, 2] (by decide) (by decide) (by decide)
  simpa using h

/-- C7 counterexample: with no censoring anywhere but a test time (3) beyond
the training follow-up (max 2), `concordance_index_ipcw` raises (the
censoring survival lookup is undefined beyond the last training time, whose
stored probability is 1), while `concordance_index_censored` returns a
5-tuple: the two functions do NOT agree on every uncensored input. -/
theorem claim_C7_counterexample :
    concordance_index_ipcw [true, true] [1, 2] [true, true] [1, 3] [2, 1]
        none (1/100000000)
      = .error "time must be smaller than largest observed time point" ∧
    concordance_index_censored [true, true] [1, 3] [2, 1] (1/100000000)
      = .ok (1, 1, 0, 0, 0) := by
  constructor
  · decide
  · have hloop : concordanceLoop (1/100000000)
        (sortSamples ([true, true].zip ([1, 3].zip ([2, 1].zip
          (([2, 1] : List ℚ).map (fun _ => 1))))))
        = ⟨1, 1, 1, 0, 0, 0⟩ := by
      simp [sortSamples, List.insertionSort, List.orderedInsert, leTQ,
        concordanceLoop, s4time, s4est, s4w, nCon, nTies]
      norm_num
    simp only [concordance_index_censored, estimate_concordance_index, hloop]
    norm_num

/-- C7 amended: when neither the training nor the test set has any censored
sample, `tau=None`, the test set has at least two samples, the arrays are
consistent, and every test time lies within the training follow-up (at most
the largest training time), `concordance_index_ipcw` returns exactly the
same result as `concordance_index_censored` on the test data. -/
theorem claim_C7 (train_event : List Bool) (train_time : List ℚ)
    (test_event : List Bool) (test_time : List ℚ) (estimate : List ℚ)
    (tol : ℚ)
    (htr : ∀ b ∈ train_event, b = true) (htrne : train_time ≠ [])
    (hte : ∀ b ∈ test_event, b = true)
    (hlen1 : test_event.length = test_time.length)
    (hlen2 : test_time.length = estimate.length)
    (h2 : 2 ≤ test_time.length)
    (hrange : ∀ t ∈ test_time, ∃ s ∈ train_time, t ≤ s) :
    concordance_index_ipcw train_event train_time test_event test_time
        estimate none tol
      = concordance_index_censored test_event test_time estimate tol := by
  have htene : test_event ≠ [] := by
    intro h
    rw [h] at hlen1
    simp at hlen1
    omega
  have hteany : test_event.any (fun e => e) = true := by
    rcases List.exists_mem_of_ne_nil test_event htene with ⟨b, hb⟩
    exact List.any_eq_true.mpr ⟨b, hb, by rw [hte b hb]⟩
  have htrall : train_event.all (fun e => e) = true :=
    List.all_eq_true.mpr (fun b hb => by rw [htr b hb])
  have hipcw := predict_ipcw_all_events train_event train_time test_event
    test_time htrall htrne hte htene hlen1 hrange
  have hw1 : (test_event.map (fun _ => (1 : ℚ))).map (fun x => x * x)
      = estimate.map (fun _ => (1 : ℚ)) := by
    rw [List.map_const', List.map_replicate, List.map_const']
    norm_num
    rw [hlen1, hlen2]
  simp only [concordance_index_ipcw]
  rw [if_neg (by simp [hteany]), if_neg (fun h => h hlen2.symm)]
  rw [map_fst_zip_eq test_event test_time hlen1,
    map_snd_zip_eq test_event test_time hlen1, hipcw]
  show estimate_concordance_index test_event test_time estimate
      ((test_event.map (fun _ => (1 : ℚ))).map (fun x => x * x)) tol
    = concordance_index_censored test_event test_time estimate tol
  rw [hw1]
  unfold concordance_index_censored
  rw [if_neg (by push_neg; exact ⟨hlen1, hlen2⟩), if_neg (by omega),
    if_neg (by simp [hteany])]

/-- Witness for C7: a concrete uncensored train/test pair with in-range test
times on which both metrics coincide. -/
theorem claim_C7_witness :
    concordance_index_ipcw [true, true] [1, 2] [true, true] [1, 2] [2, 1]
        none (1/100000000)
      = concordance_index_censored [true, true] [1, 2] [2, 1]
          (1/100000000) :=
  claim_C7 [true, true] [1, 2] [true, true] [1, 2] [2, 1] (1/100000000)
    (by decide) (by decide) (by decide) (by decide) (by decide) (by decide)
    (by decide)

/-! ### C5: predict_ipcw error behavior -/

/-- C5 counterexample: on an estimator fitted on all-events training data
(stored probabilities all `1`, tail probability `1 > 0`), `predict_ipcw`
for an event sample at time `3` (beyond the last stored time `2`) raises —
but not because any `G-hat` value is zero: the `predict_proba` lookup
itself raises before any `G-hat` value exists.  The error condition of
`predict_ipcw` is therefore not equivalent to "`G-hat` is exactly zero at
some event sample's time". -/
theorem claim_C5_counterexample :
    exceptIsError (CensoringDistributionEstimator.predict_ipcw
      (CensoringDistributionEstimator.fit [true, true] [1, 2]) [true] [3])
        = true ∧
    predict_proba (CensoringDistributionEstimator.fit [true, true] [1, 2])
        (eventTimes [true] [3])
      = .error "time must be smaller than largest observed time point" := by
  exact ⟨by decide, by decide⟩

/-- The weights scattered by `predict_ipcw` expressed pointwise: censored
samples get `0`, event samples get the inverse of the looked-up value of
their own time. -/
theorem fillWeights_eventTimes (event : List Bool) (time : List ℚ)
    (f : ℚ → ℚ) (hlen : event.length = time.length) :
    fillWeights event ((eventTimes event time).map f)
      = List.zipWith (fun e t => if e then 1 / f t else 0) event time := by
  induction event generalizing time with
  | nil => rfl
  | cons e es ih =>
    cases time with
    | nil => simp at hlen
    | cons t ts =>
      have hlen2 : es.length = ts.length := by simpa using hlen
      cases e
      · have het : eventTimes (false :: es) (t :: ts) = eventTimes es ts := by
          unfold eventTimes
          rw [List.zip_cons_cons, List.filter_cons]
          simp
        rw [het]
        show (0 : ℚ) :: fillWeights es ((eventTimes es ts).map f)
          = (0 : ℚ) :: List.zipWith _ es ts
        rw [ih ts hlen2]
      · have het : eventTimes (true :: es) (t :: ts)
            = t :: eventTimes es ts := by
          unfold eventTimes
          rw [List.zip_cons_cons, List.filter_cons]
          simp
        rw [het, List.map_cons]
        show (1 / f t) :: fillWeights es ((eventTimes es ts).map f)
          = (1 / f t) :: List.zipWith _ es ts
        rw [ih ts hlen2]

/-- C5 amended: provided the sample set has at least one event (the
validator's precondition) and the `predict_proba` lookup at the event
samples' own times succeeds with values `gs` (i.e. no event time lies
beyond the stored range with a nonzero tail), `predict_ipcw` raises exactly
when some value of `gs` is zero, and otherwise returns per-sample weights
`1/G-hat(t_i)` for event samples and `0` for censored samples.  (Without
the success hypothesis the equivalence is false: see the counterexample,
where `predict_ipcw` raises because the lookup itself is undefined.) -/
theorem claim_C5 (st : FittedState) (event : List Bool) (time : List ℚ)
    (gs : List ℚ) (hlen : event.length = time.length)
    (hev : event.any (fun e => e) = true)
    (hpp : predict_proba st (eventTimes event time) = .ok gs) :
    (exceptIsError (CensoringDistributionEstimator.predict_ipcw st event time)
        = true ↔ (0 : ℚ) ∈ gs) ∧
    ((0 : ℚ) ∉ gs →
      CensoringDistributionEstimator.predict_ipcw st event time
        = .ok (List.zipWith
            (fun e t => if e then 1 / predictProbaPoint st t else 0)
            event time)) := by
  have hgs : gs = (eventTimes event time).map (predictProbaPoint st) := by
    unfold predict_proba at hpp
    by_cases h1 : (eventTimes event time).isEmpty
    · rw [if_pos h1] at hpp
      exact absurd hpp (by simp)
    · rw [if_neg h1] at hpp
      by_cases h2 : 0 < lastProb st ∧ (eventTimes event time).any
          (fun t => TimeVal.ltq (lastTime st) t)
      · rw [if_pos h2] at hpp
        exact absurd hpp (by simp)
      · rw [if_neg h2] at hpp
        exact (Except.ok.inj hpp).symm
  have hmain : CensoringDistributionEstimator.predict_ipcw st event time
      = if gs.any (fun g => g == 0) then
          Except.error
            "censoring survival function is zero at one or more time points"
        else Except.ok (fillWeights event gs) := by
    unfold CensoringDistributionEstimator.predict_ipcw
    rw [if_neg (by simp [hev]), hpp]
  constructor
  · rw [hmain]
    by_cases hz : gs.any (fun g => g == 0)
    · rw [if_pos hz]
      simp only [exceptIsError, true_iff]
      rcases List.any_eq_true.mp hz with ⟨g, hg, hg0⟩
      have : g = 0 := by simpa using hg0
      exact this ▸ hg
    · rw [if_neg hz]
      constructor
      · intro h
        exact absurd h (by simp [exceptIsError])
      · intro h0
        exact absurd (List.any_eq_true.mpr ⟨0, h0, by simp⟩) hz
  · intro h0
    have hz : gs.any (fun g => g == 0) = false := by
      apply List.any_eq_false.mpr
      intro g hg
      simp only [beq_iff_eq]
      intro hgz
      exact h0 (hgz ▸ hg)
    rw [hmain, hz]
    simp only [Bool.false_eq_true, if_false, Except.ok.injEq]
    rw [hgs, fillWeights_eventTimes event time (predictProbaPoint st) hlen]

/-- Witness for C5 on a concrete fitted state (the all-events shortcut
state), queried on one event and one censored sample inside the range. -/
theorem claim_C5_witness :
    (exceptIsError (CensoringDistributionEstimator.predict_ipcw
        ⟨[TimeVal.fin 1, TimeVal.fin 2], [1, 1]⟩
        [true, false] [2, 5]) = true ↔ (0 : ℚ) ∈ ([1] : List ℚ)) ∧
    CensoringDistributionEstimator.predict_ipcw
        ⟨[TimeVal.fin 1, TimeVal.fin 2], [1, 1]⟩
        [true, false] [2, 5]
      = .ok (List.zipWith (fun e t => if e then
          1 / predictProbaPoint ⟨[TimeVal.fin 1, TimeVal.fin 2], [1, 1]⟩ t
        else 0) [true, false] [2, 5]) := by
  have h := claim_C5 ⟨[TimeVal.fin 1, TimeVal.fin 2], [1, 1]⟩
    [true, false] [2, 5] [1] (by decide) (by decide) (by decide)
  exact ⟨h.1, h.2 (by decide)⟩

/-! ### C4: predict_proba error condition and step lookup -/

theorem cumprodAux_length (l : List ℚ) (a : ℚ) :
    (cumprodAux a l).length = l.length := by
  induction l generalizing a with
  | nil => rfl
  | cons x xs ih => simp [cumprodAux, ih]

theorem takeWhile_getD_true {α : Type} (p : α → Bool) (l : List α) (d : α)
    (j : ℕ) (hj : j < (l.takeWhile p).length) : p (l.getD j d) = true := by
  induction l generalizing j with
  | nil => simp [List.takeWhile] at hj
  | cons a as ih =>
    by_cases hp : p a
    · have he : (a :: as).takeWhile p = a :: as.takeWhile p := by
        rw [List.takeWhile_cons, if_pos hp]
      rw [he] at hj
      cases j with
      | zero => simpa using hp
      | succ k =>
        have hk : k < (as.takeWhile p).length := by simpa using hj
        simpa using ih k hk
    · have he : (a :: as).takeWhile p = [] := by
        rw [List.takeWhile_cons, if_neg hp]
      rw [he] at hj
      simp at hj

theorem takeWhile_boundary_false {α : Type} (p : α → Bool) (l : List α)
    (d : α) (hlt : (l.takeWhile p).length < l.length) :
    p (l.getD (l.takeWhile p).length d) = false := by
  induction l with
  | nil => simp at hlt
  | cons a as ih =>
    by_cases hp : p a
    · have he : (a :: as).takeWhile p = a :: as.takeWhile p := by
        rw [List.takeWhile_cons, if_pos hp]
      rw [he] at hlt ⊢
      simp only [List.length_cons] at hlt ⊢
      have := ih (by omega)
      simpa using this
    · have he : (a :: as).takeWhile p = [] := by
        rw [List.takeWhile_cons, if_neg hp]
      rw [he]
      simpa using hp

theorem ltq_to_leq (x : TimeVal) (t : ℚ) (h : TimeVal.ltq x t = true) :
    TimeVal.leq x t = true := by
  cases x with
  | negInf => rfl
  | fin s =>
    simp only [TimeVal.ltq, decide_eq_true_eq] at h
    simp only [TimeVal.leq, decide_eq_true_eq]
    linarith

theorem ltq_false_fin (x : TimeVal) (t : ℚ)
    (h : TimeVal.ltq x t = false) : ∃ s, x = TimeVal.fin s ∧ t ≤ s := by
  cases x with
  | negInf => simp [TimeVal.ltq] at h
  | fin s =>
    refine ⟨s, rfl, ?_⟩
    simp only [TimeVal.ltq, decide_eq_false_iff_not, not_lt] at h
    exact h

theorem sLt_fin (s : ℚ) (y : TimeVal) (h : TimeVal.sLt (.fin s) y) :
    ∃ s2, y = TimeVal.fin s2 ∧ s < s2 := by
  cases y with
  | negInf => exact absurd h (by simp [TimeVal.sLt])
  | fin s2 => exact ⟨s2, rfl, h⟩

theorem getD_map_lt {α β : Type} (f : α → β) (l : List α) (k : ℕ)
    (hk : k < l.length) (d : α) (d2 : β) :
    (l.map f).getD k d2 = f (l.getD k d) := by
  induction l generalizing k with
  | nil => simp at hk
  | cons a as ih =>
    cases k with
    | zero => rfl
    | succ j =>
      have : j < as.length := by simpa using hk
      simpa using ih j this

/-- On a strictly sorted stored-time array containing a floor for the query
`t`, `stepLookup` returns the probability at the greatest stored time that
is at most `t`. -/
theorem stepLookup_greatest (ut : List TimeVal) (prob : List ℚ) (t : ℚ)
    (hsort : ut.Pairwise TimeVal.sLt)
    (hfloor : ∃ x ∈ ut, TimeVal.leq x t = true) :
    ∃ i, i < ut.length ∧
      TimeVal.leq (ut.getD i TimeVal.negInf) t = true ∧
      (∀ j, j < ut.length →
        TimeVal.leq (ut.getD j TimeVal.negInf) t = true → j ≤ i) ∧
      stepLookup ut prob t = prob.getD i 0 := by
  have hmono : ∀ i j, i < j → (hj : j < ut.length) →
      TimeVal.sLt (ut.getD i TimeVal.negInf) (ut.getD j TimeVal.negInf) := by
    intro i j hij hj
    have hi : i < ut.length := lt_trans hij hj
    rw [List.getD_eq_getElem _ _ hi, List.getD_eq_getElem _ _ hj]
    exact List.pairwise_iff_getElem.mp hsort i j hi hj hij
  set idx := (ut.takeWhile (fun x => TimeVal.ltq x t)).length with hidx
  have hle : idx ≤ ut.length := (List.takeWhile_sublist _).length_le
  unfold stepLookup
  rw [← hidx]
  by_cases hex : ut.get? idx = some (TimeVal.fin t)
  · -- exact match: the greatest stored time `<= t` is `t` itself, at `idx`
    have hilt : idx < ut.length := by
      by_contra hge
      rw [List.get?_eq_none.mpr (Nat.le_of_not_lt hge)] at hex
      exact absurd hex (by simp)
    have hval : ut.getD idx TimeVal.negInf = TimeVal.fin t := by
      rw [List.getD_eq_getElem _ _ hilt]
      have := List.get?_eq_get hilt
      rw [this] at hex
      simpa using hex
    refine ⟨idx, hilt, ?_, ?_, by rw [if_pos hex]⟩
    · rw [hval]
      simp [TimeVal.leq]
    · intro j hj hjle
      by_contra hgt
      have hij : idx < j := by omega
      have := hmono idx j hij hj
      rw [hval] at this
      rcases sLt_fin t _ this with ⟨s2, hs2, hts2⟩
      rw [hs2] at hjle
      simp only [TimeVal.leq, decide_eq_true_eq] at hjle
      linarith
  · -- no exact match
    have hnonex : idx < ut.length → ∃ s, ut.getD idx TimeVal.negInf
        = TimeVal.fin s ∧ t < s := by
      intro hilt
      have hb := takeWhile_boundary_false (fun x => TimeVal.ltq x t) ut
        TimeVal.negInf (hidx ▸ hilt)
      rw [← hidx] at hb
      rcases ltq_false_fin _ t hb with ⟨s, hs, hts⟩
      rcases lt_or_eq_of_le hts with h1 | h1
      · exact ⟨s, hs, h1⟩
      · exfalso
        apply hex
        rw [List.get?_eq_get hilt]
        have : ut.getD idx TimeVal.negInf = ut.get ⟨idx, hilt⟩ := by
          rw [List.getD_eq_getElem _ _ hilt]
          rfl
        rw [← this, hs, h1]
    have hnotle : ∀ j, idx ≤ j → j < ut.length →
        TimeVal.leq (ut.getD j TimeVal.negInf) t = false := by
      intro j hij hj
      have hilt : idx < ut.length := lt_of_le_of_lt hij hj
      rcases hnonex hilt with ⟨s, hs, hts⟩
      rcases lt_or_eq_of_le hij with h1 | h1
      · have := hmono idx j h1 hj
        rw [hs] at this
        rcases sLt_fin s _ this with ⟨s2, hs2, hss2⟩
        rw [hs2]
        simp only [TimeVal.leq, decide_eq_false_iff_not, not_le]
        linarith
      · rw [← h1, hs]
        simp only [TimeVal.leq, decide_eq_false_iff_not, not_le]
        linarith
    by_cases hz : idx = 0
    · -- impossible: the floor would have to sit at an index `< idx = 0`
      exfalso
      rcases hfloor with ⟨x, hx, hxle⟩
      rcases List.mem_iff_getElem.mp hx with ⟨j, hj, hjx⟩
      have : TimeVal.leq (ut.getD j TimeVal.negInf) t = false := by
        apply hnotle j (by omega) hj
      rw [List.getD_eq_getElem _ _ hj, hjx] at this
      rw [hxle] at this
      exact absurd this (by simp)
    · refine ⟨idx - 1, by omega, ?_, ?_, by rw [if_neg hex, if_neg hz]⟩
      · have hp : idx - 1 < idx := by omega
        have := takeWhile_getD_true (fun x => TimeVal.ltq x t) ut
          TimeVal.negInf (idx - 1) (hidx ▸ hp)
        exact ltq_to_leq _ _ this
      · intro j hj hjle
        by_contra hgt
        have : TimeVal.leq (ut.getD j TimeVal.negInf) t = false :=
          hnotle j (by omega) hj
        rw [hjle] at this
        exact absurd this (by simp)

theorem survival_fit_sorted (event : List Bool) (time : List ℚ) :
    (SurvivalFunctionEstimator.fit event time).unique_time.Pairwise
      TimeVal.sLt := by
  show (TimeVal.negInf :: ((kaplan_meier_estimator event time none).1.map
    TimeVal.fin)).Pairwise TimeVal.sLt
  refine List.pairwise_cons.mpr ⟨?_, ?_⟩
  · intro y hy
    rcases List.mem_map.mp hy with ⟨s, _, hs⟩
    rw [← hs]
    trivial
  · rw [List.pairwise_map]
    exact (compute_counts_times_sorted event time).imp (fun h => h)

theorem survival_fit_lastProb_nonneg (event : List Bool) (time : List ℚ) :
    0 ≤ lastProb (SurvivalFunctionEstimator.fit event time) := by
  show 0 ≤ (1 :: (kaplan_meier_estimator event time none).2).getLastD 1
  rw [List.getLastD_cons]
  rcases List.mem_cons.mp (List.getLastD_mem_cons
    (kaplan_meier_estimator event time none).2 1) with hm | hm
  · rw [hm]; norm_num
  · exact ((km_prob_bound event time none).1 _ hm).1

/-- C4: for a fitted `SurvivalFunctionEstimator` and a nonempty query array
(the validator precondition), `predict_proba` raises exactly when the
stored probability at the last stored time is nonzero AND some query time
exceeds the last stored time; when it returns, queries beyond the last
stored time (possible only with zero tail) yield `0`, and every other query
yields the step value at the greatest stored time at most the query, the
`-inf` sentinel acting as floor. -/
theorem claim_C4 (event : List Bool) (time : List ℚ) (qs : List ℚ)
    (hq : qs ≠ []) :
    (exceptIsError (predict_proba (SurvivalFunctionEstimator.fit event time)
        qs) = true ↔
      (lastProb (SurvivalFunctionEstimator.fit event time) ≠ 0 ∧
        ∃ q ∈ qs, TimeVal.ltq
          (lastTime (SurvivalFunctionEstimator.fit event time)) q = true)) ∧
    (∀ res, predict_proba (SurvivalFunctionEstimator.fit event time) qs
        = .ok res →
      ∀ k, k < qs.length →
        (TimeVal.ltq (lastTime (SurvivalFunctionEstimator.fit event time))
            (qs.getD k 0) = true → res.getD k 0 = 0) ∧
        (TimeVal.ltq (lastTime (SurvivalFunctionEstimator.fit event time))
            (qs.getD k 0) = false →
          ∃ i, i < (SurvivalFunctionEstimator.fit event
              time).unique_time.length ∧
            TimeVal.leq ((SurvivalFunctionEstimator.fit event
                time).unique_time.getD i TimeVal.negInf) (qs.getD k 0)
              = true ∧
            (∀ j, j < (SurvivalFunctionEstimator.fit event
                time).unique_time.length →
              TimeVal.leq ((SurvivalFunctionEstimator.fit event
                  time).unique_time.getD j TimeVal.negInf) (qs.getD k 0)
                = true → j ≤ i) ∧
            res.getD k 0 = (SurvivalFunctionEstimator.fit event
              time).prob.getD i 0)) := by
  have hnn := survival_fit_lastProb_nonneg event time
  have hmem : TimeVal.negInf
      ∈ (SurvivalFunctionEstimator.fit event time).unique_time := by
    show TimeVal.negInf ∈ TimeVal.negInf
      :: ((kaplan_meier_estimator event time none).1.map TimeVal.fin)
    exact List.mem_cons_self _ _
  constructor
  · unfold predict_proba
    rw [if_neg (by simp only [List.isEmpty_iff]; exact hq)]
    by_cases hc : 0 < lastProb (SurvivalFunctionEstimator.fit event time)
        ∧ qs.any (fun t => TimeVal.ltq
          (lastTime (SurvivalFunctionEstimator.fit event time)) t)
    · rw [if_pos hc]
      simp only [exceptIsError, true_iff]
      exact ⟨ne_of_gt hc.1, List.any_eq_true.mp hc.2⟩
    · rw [if_neg hc]
      constructor
      · intro h
        exact absurd h (by simp [exceptIsError])
      · rintro ⟨h1, q, hq2, hq3⟩
        exact absurd ⟨lt_of_le_of_ne hnn (Ne.symm h1),
          List.any_eq_true.mpr ⟨q, hq2, hq3⟩⟩ hc
  · intro res hres k hk
    have hresform : res = qs.map
        (predictProbaPoint (SurvivalFunctionEstimator.fit event time)) := by
      unfold predict_proba at hres
      rw [if_neg (by simp only [List.isEmpty_iff]; exact hq)] at hres
      by_cases hc : 0 < lastProb (SurvivalFunctionEstimator.fit event time)
          ∧ qs.any (fun t => TimeVal.ltq
            (lastTime (SurvivalFunctionEstimator.fit event time)) t)
      · rw [if_pos hc] at hres
        exact absurd hres (by simp)
      · rw [if_neg hc] at hres
        exact (Except.ok.inj hres).symm
    have hresk : res.getD k 0 = predictProbaPoint
        (SurvivalFunctionEstimator.fit event time) (qs.getD k 0) := by
      rw [hresform]
      exact getD_map_lt _ qs k hk 0 0
    constructor
    · intro hbeyond
      rw [hresk]
      unfold predictProbaPoint
      rw [if_pos hbeyond]
    · intro hin
      rcases stepLookup_greatest
        (SurvivalFunctionEstimator.fit event time).unique_time
        (SurvivalFunctionEstimator.fit event time).prob (qs.getD k 0)
        (survival_fit_sorted event time) ⟨TimeVal.negInf, hmem, rfl⟩ with
        ⟨i, hi1, hi2, hi3, hi4⟩
      refine ⟨i, hi1, hi2, hi3, ?_⟩
      rw [hresk]
      unfold predictProbaPoint
      rw [if_neg (by rw [hin]; decide), hi4]

/-- Concrete fitted state for the C4 witness: one event at time 5 gives the
survival curve that drops to exactly zero. -/
theorem survival_fit_eval_single :
    SurvivalFunctionEstimator.fit [true] [5]
      = ⟨[TimeVal.negInf, TimeVal.fin 5], [1, 0]⟩ := by
  have hkm : kaplan_meier_estimator [true] [5] none = ([5], [0]) := by
    simp [kaplan_meier_estimator, kmFactors, compute_counts, groupCounts,
      sortByTime, List.insertionSort, List.orderedInsert, leT, atRiskList,
      cumprod, cumprodAux]
  unfold SurvivalFunctionEstimator.fit
  rw [hkm]
  rfl

/-- Witness for C4: tail probability is exactly zero, so the out-of-range
query 7 succeeds and returns 0. -/
theorem claim_C4_witness :
    (exceptIsError (predict_proba (SurvivalFunctionEstimator.fit [true] [5])
        [7]) = true ↔
      (lastProb (SurvivalFunctionEstimator.fit [true] [5]) ≠ 0 ∧
        ∃ q ∈ [(7 : ℚ)], TimeVal.ltq
          (lastTime (SurvivalFunctionEstimator.fit [true] [5])) q = true)) ∧
    predict_proba (SurvivalFunctionEstimator.fit [true] [5]) [7]
      = .ok [0] := by
  refine ⟨(claim_C4 [true] [5] [7] (by decide)).1, ?_⟩
  rw [survival_fit_eval_single]
  decide

/-! ### C1: perfect monotone-decreasing risk gives concordance exactly 1 -/

theorem zip4_mem (p : Sample4) (ev : List Bool) (tm est w : List ℚ)
    (h : p ∈ ev.zip (tm.zip (est.zip w))) :
    p.1 ∈ ev ∧ s4time p ∈ tm ∧ s4est p ∈ est ∧ s4w p ∈ w := by
  have h1 := List.of_mem_zip h
  have h2 := List.of_mem_zip h1.2
  have h3 := List.of_mem_zip h2.2
  exact ⟨h1.1, h2.1, h3.1, h3.2⟩

theorem pairwise_zip4 (Rt : ℚ → ℚ → Prop) (Re : ℚ → ℚ → Prop) :
    ∀ (ev : List Bool) (tm est w : List ℚ),
      tm.Pairwise Rt → est.Pairwise Re →
      ev.length = tm.length → tm.length = est.length →
      est.length = w.length →
      (ev.zip (tm.zip (est.zip w))).Pairwise
        (fun a b => Rt (s4time a) (s4time b) ∧ Re (s4est a) (s4est b)) := by
  intro ev
  induction ev with
  | nil => intro tm est w _ _ _ _ _; simp
  | cons e es ih =>
    intro tm est w hpt hpe h1 h2 h3
    cases tm with
    | nil => simp at h1
    | cons t ts =>
      cases est with
      | nil => simp at h2
      | cons x xs =>
        cases w with
        | nil => simp at h3
        | cons v vs =>
          simp only [List.zip_cons_cons]
          refine List.pairwise_cons.mpr ⟨?_, ?_⟩
          · intro p hp
            have hm := zip4_mem p es ts xs vs hp
            exact ⟨(List.pairwise_cons.mp hpt).1 _ hm.2.1,
              (List.pairwise_cons.mp hpe).1 _ hm.2.2.1⟩
          · exact ih ts xs vs (List.pairwise_cons.mp hpt).2
              (List.pairwise_cons.mp hpe).2 (by simpa using h1)
              (by simpa using h2) (by simpa using h3)

theorem concordanceLoop_perfect (tol : ℚ) (htol : 0 ≤ tol) :
    ∀ (l : List Sample4),
      (∀ p ∈ l, p.1 = true) → (∀ p ∈ l, s4w p = 1) →
      l.Pairwise (fun a b => s4time a < s4time b) →
      l.Pairwise (fun a b => s4est b + tol < s4est a) →
      concordanceLoop tol l
        = ⟨(l.length.choose 2 : ℚ), (l.length.choose 2 : ℚ),
            l.length.choose 2, 0, 0, 0⟩ := by
  intro l
  induction l with
  | nil =>
    intro _ _ _ _
    rw [concordanceLoop]
    norm_num
  | cons x rest ih =>
    intro hall hw ht he
    have hx1 : x.1 = true := hall x (List.mem_cons_self _ _)
    have hwx : s4w x = 1 := hw x (List.mem_cons_self _ _)
    have htw : rest.takeWhile (fun p => s4time p == s4time x) = [] := by
      cases rest with
      | nil => rfl
      | cons y ys =>
        rw [List.takeWhile_cons, if_neg ?_]
        have hlt := (List.pairwise_cons.mp ht).1 y (List.mem_cons_self _ _)
        simp only [beq_iff_eq]
        intro hcon
        rw [hcon] at hlt
        exact lt_irrefl _ hlt
    have hdw : rest.dropWhile (fun p => s4time p == s4time x) = rest := by
      cases rest with
      | nil => rfl
      | cons y ys =>
        rw [List.dropWhile_cons, if_neg ?_]
        have hlt := (List.pairwise_cons.mp ht).1 y (List.mem_cons_self _ _)
        simp only [beq_iff_eq]
        intro hcon
        rw [hcon] at hlt
        exact lt_irrefl _ hlt
    have hcon : nCon tol (s4est x) (rest.map s4est) = rest.length := by
      unfold nCon
      rw [List.filter_eq_self.mpr, List.length_map]
      intro a ha
      rcases List.mem_map.mp ha with ⟨y, hy, hya⟩
      have hlt := (List.pairwise_cons.mp he).1 y hy
      rw [← hya]
      simp only [Bool.and_eq_true, Bool.not_eq_true', decide_eq_false_iff_not,
        decide_eq_true_eq]
      constructor
      · rw [abs_of_nonpos (by linarith)]
        intro hcon2
        linarith
      · linarith
    have hties : nTies tol (s4est x) (rest.map s4est) = 0 := by
      unfold nTies
      rw [List.length_eq_zero]
      apply List.filter_eq_nil.mpr
      intro a ha
      rcases List.mem_map.mp ha with ⟨y, hy, hya⟩
      have hlt := (List.pairwise_cons.mp he).1 y hy
      rw [← hya]
      simp only [decide_eq_true_eq, not_le]
      rw [abs_of_nonpos (by linarith)]
      linarith
    have ihres := ih (fun p hp => hall p (List.mem_cons_of_mem _ hp))
      (fun p hp => hw p (List.mem_cons_of_mem _ hp))
      (List.pairwise_cons.mp ht).2 (List.pairwise_cons.mp he).2
    rw [concordanceLoop, htw, hdw, ihres]
    have hfe : ([x].filter (fun p => p.1)) = [x] := by
      rw [List.filter_eq_self.mpr]
      intro a ha
      rw [List.mem_singleton.mp ha, hx1]
    have hfc : ([x].filter (fun p => !p.1)) = [] := by
      apply List.filter_eq_nil.mpr
      intro a ha
      rw [List.mem_singleton.mp ha, hx1]
      decide
    simp only [hfe, hfc, List.map_nil, List.nil_append, List.map_cons,
      List.sum_cons, List.map_nil, List.sum_nil, List.length_nil,
      List.length_cons, List.length_map, hcon, hties, hwx]
    have hchoose : (rest.length + 1).choose 2 = rest.length.choose 2
        + rest.length := by
      rw [Nat.choose_succ_succ, Nat.choose_one_right, Nat.add_comm]
    simp only [ConcordanceStats.mk.injEq]
    refine ⟨?_, ?_, ?_, ?_, ?_, ?_⟩
    all_goals try rw [hchoose]
    all_goals push_cast
    all_goals try ring
    all_goals try omega
    all_goals trivial

/-- C1: the concrete all-events scenario `time=[1..5]`,
`risk=[5,4,3,2,1]` gives the Kaplan-Meier curve `[0.8,0.6,0.4,0.2,0]` and
concordance `(1.0, 10, 0, 0, 0)`; in general, on untied data ranked
perfectly (strictly increasing times, strictly decreasing estimates
separated by more than the tie tolerance, all uncensored) the index is
exactly 1 with `n.choose 2` concordant pairs and zero discordant and zero
tied pairs. -/
theorem claim_C1 :
    kaplan_meier_estimator [true, true, true, true, true] [1, 2, 3, 4, 5]
        none = ([1, 2, 3, 4, 5], [4/5, 3/5, 2/5, 1/5, 0]) ∧
    concordance_index_censored [true, true, true, true, true]
        [1, 2, 3, 4, 5] [5, 4, 3, 2, 1] (1/100000000)
      = .ok (1, 10, 0, 0, 0) ∧
    (∀ (event : List Bool) (time est : List ℚ) (tol : ℚ),
      0 ≤ tol → event.length = time.length → time.length = est.length →
      2 ≤ event.length → (∀ b ∈ event, b = true) →
      time.Pairwise (fun a b => a < b) →
      est.Pairwise (fun a b => b + tol < a) →
      concordance_index_censored event time est tol
        = .ok (1, event.length.choose 2, 0, 0, 0)) := by
  refine ⟨?_, ?_, ?_⟩
  · simp [kaplan_meier_estimator, kmFactors, compute_counts, groupCounts,
      sortByTime, List.insertionSort, List.orderedInsert, leT, atRiskList,
      cumprod, cumprodAux]
    norm_num
  · have hloop : concordanceLoop (1/100000000)
        (sortSamples ([true, true, true, true, true].zip
          ([1, 2, 3, 4, 5].zip ([5, 4, 3, 2, 1].zip
            (([5, 4, 3, 2, 1] : List ℚ).map (fun _ => 1))))))
        = ⟨10, 10, 10, 0, 0, 0⟩ := by
      simp [sortSamples, List.insertionSort, List.orderedInsert, leTQ,
        concordanceLoop, s4time, s4est, s4w, nCon, nTies]
      norm_num
    simp only [concordance_index_censored, estimate_concordance_index, hloop]
    norm_num
  · intro event time est tol htol h1 h2 h5 hall hpt hpe
    have hwlen : est.length = (est.map (fun _ => (1 : ℚ))).length :=
      (List.length_map _ _).symm
    have hpw := pairwise_zip4 (fun a b => a < b) (fun a b => b + tol < a)
      event time est (est.map (fun _ => (1 : ℚ))) hpt hpe h1 h2 hwlen
    have hallq : ∀ p ∈ event.zip (time.zip (est.zip
        (est.map (fun _ => (1 : ℚ))))), p.1 = true := by
      intro p hp
      exact hall p.1 (zip4_mem p _ _ _ _ hp).1
    have hwq : ∀ p ∈ event.zip (time.zip (est.zip
        (est.map (fun _ => (1 : ℚ))))), s4w p = 1 := by
      intro p hp
      have := (zip4_mem p _ _ _ _ hp).2.2.2
      rcases List.mem_map.mp this with ⟨x, _, hx⟩
      exact hx.symm
    have hsorted : (event.zip (time.zip (est.zip
        (est.map (fun _ => (1 : ℚ)))))).Pairwise leTQ :=
      hpw.imp (fun h => le_of_lt h.1)
    have hsq : sortSamples (event.zip (time.zip (est.zip
        (est.map (fun _ => (1 : ℚ)))))) = event.zip (time.zip (est.zip
        (est.map (fun _ => (1 : ℚ))))) :=
      List.Sorted.insertionSort_eq hsorted
    have hqlen : (event.zip (time.zip (est.zip
        (est.map (fun _ => (1 : ℚ)))))).length = event.length := by
      simp only [List.length_zip, List.length_map, min_self]
      rw [← h2, min_self, ← h1, min_self]
    have hloop := concordanceLoop_perfect tol htol
      (event.zip (time.zip (est.zip (est.map (fun _ => (1 : ℚ)))))) hallq
      hwq (hpw.imp (fun h => h.1)) (hpw.imp (fun h => h.2))
    rw [hqlen] at hloop
    have hne : event ≠ [] := by
      intro h
      rw [h] at h5
      simp at h5
    have hany : event.any (fun e => e) = true := by
      rcases List.exists_mem_of_ne_nil event hne with ⟨b, hb⟩
      exact List.any_eq_true.mpr ⟨b, hb, by rw [hall b hb]⟩
    have hpos : 0 < event.length.choose 2 := Nat.choose_pos (by omega)
    have hne0 : ((event.length.choose 2 : ℕ) : ℚ) ≠ 0 := by
      have : event.length.choose 2 ≠ 0 := Nat.pos_iff_ne_zero.mp hpos
      exact_mod_cast this
    unfold concordance_index_censored
    rw [if_neg (by push_neg; exact ⟨h1, h2⟩), if_neg (by omega),
      if_neg (by simp [hany])]
    unfold estimate_concordance_index
    rw [hsq, hloop]
    rw [if_neg (by simpa using hne0)]
    rw [div_self hne0]

/-- Witness for the general part of C1 at a concrete perfect ranking. -/
theorem claim_C1_witness :
    concordance_index_censored [true, true] [1, 2] [9, 4] 2
      = .ok (1, 1, 0, 0, 0) := by
  have h := claim_C1.2.2 [true, true] [1, 2] [9, 4] 2 (by norm_num)
    (by decide) (by decide) (by decide) (by decide)
    (by norm_num [List.pairwise_cons]) (by norm_num [List.pairwise_cons])
  rw [show ([true, true] : List Bool).length.choose 2 = 1 from rfl] at h
  exact h

/-! ### C10: the four pair counts do not depend on the weights -/

/-- A sample row without its weight: `(event, time, estimate)`. -/
abbrev Sample3 := Bool × ℚ × ℚ

/-- Forget the weight of a sample row. -/
def strip3 (p : Sample4) : Sample3 := (p.1, p.2.1, p.2.2.1)

/-- Time of a weightless sample row. -/
def t3 (p : Sample3) : ℚ := p.2.1

/-- Estimate of a weightless sample row. -/
def e3 (p : Sample3) : ℚ := p.2.2

/-- Sort key by time on weightless sample rows. -/
def leT3 (a b : Sample3) : Prop := t3 a ≤ t3 b

instance : DecidableRel leT3 := fun a b =>
  inferInstanceAs (Decidable (t3 a ≤ t3 b))

/-- The `(concordant, discordant, tied_risk, tied_time)` tallies of the
concordance accumulation, computed from events, times and estimates only:
the loop of `_estimate_concordance_index` with the weight-dependent
`numerator`/`denominator` fields dropped. -/
def countsLoop (tol : ℚ) : List Sample3 → ℕ × ℕ × ℕ × ℕ
  | [] => (0, 0, 0, 0)
  | x :: rest =>
    let block := x :: rest.takeWhile (fun p => t3 p == t3 x)
    let after := rest.dropWhile (fun p => t3 p == t3 x)
    let censEsts := (block.filter (fun p => !p.1)).map e3
    let compEsts := censEsts ++ after.map e3
    let evs := block.filter (fun p => p.1)
    let s := countsLoop tol after
    (s.1 + (evs.map (fun p => nCon tol (e3 p) compEsts)).sum,
     s.2.1 + (evs.map (fun p => compEsts.length - nCon tol (e3 p) compEsts
       - nTies tol (e3 p) compEsts)).sum,
     s.2.2.1 + (evs.map (fun p => nTies tol (e3 p) compEsts)).sum,
     s.2.2.2 + evs.length * censEsts.length)
termination_by l => l.length
decreasing_by
  simp only [List.length_cons]
  exact Nat.lt_succ_of_le ((List.dropWhile_sublist _).length_le)

theorem concordanceLoop_counts (tol : ℚ) (l : List Sample4) :
    ((concordanceLoop tol l).concordant, (concordanceLoop tol l).discordant,
      (concordanceLoop tol l).tied_risk, (concordanceLoop tol l).tied_time)
      = countsLoop tol (l.map strip3) := by
  induction l using concordanceLoop.induct tol with
  | case1 =>
    rw [concordanceLoop, List.map_nil, countsLoop]
  | case2 x rest dw ih =>
    have hdw : dw = rest.dropWhile (fun p => s4time p == s4time x) := rfl
    rw [hdw] at ih
    rw [Prod.ext_iff, Prod.ext_iff, Prod.ext_iff] at ih
    rw [concordanceLoop, List.map_cons, countsLoop]
    have h1 : (rest.map strip3).takeWhile
        (fun p => t3 p == t3 (strip3 x))
        = (rest.takeWhile (fun p => s4time p == s4time x)).map strip3 := by
      rw [List.takeWhile_map]
      rfl
    have h2 : (rest.map strip3).dropWhile
        (fun p => t3 p == t3 (strip3 x))
        = (rest.dropWhile (fun p => s4time p == s4time x)).map strip3 := by
      rw [List.dropWhile_map]
      rfl
    rw [h1, h2, ← List.map_cons]
    simp only [List.filter_map, List.map_map, List.length_map]
    rw [← ih.1, ← ih.2.1, ← ih.2.2.1, ← ih.2.2.2]
    rfl

theorem sortSamples_strip3 (l : List Sample4) :
    (sortSamples l).map strip3 = List.insertionSort leT3 (l.map strip3) :=
  List.map_insertionSort leTQ leT3 strip3 l (fun _ _ _ _ => Iff.rfl)

theorem map_strip3_zip4 : ∀ (ev : List Bool) (tm est w : List ℚ),
    w.length = est.length →
    (ev.zip (tm.zip (est.zip w))).map strip3 = ev.zip (tm.zip est) := by
  intro ev
  induction ev with
  | nil => intro tm est w _; rfl
  | cons e es ih =>
    intro tm est w h
    cases tm with
    | nil => rfl
    | cons t ts =>
      cases est with
      | nil => rfl
      | cons x xs =>
        cases w with
        | nil => simp at h
        | cons v vs =>
          simp only [List.zip_cons_cons, List.map_cons]
          rw [ih ts xs vs (by simpa using h)]
          rfl

theorem fillWeights_length : ∀ (ev : List Bool) (gs : List ℚ),
    (fillWeights ev gs).length = ev.length := by
  intro ev
  induction ev with
  | nil => intro gs; rfl
  | cons b es ih =>
    intro gs
    cases b with
    | false => simp [fillWeights, ih]
    | true =>
      cases gs with
      | nil => simp [fillWeights, ih]
      | cons g gs2 => simp [fillWeights, ih]

/-- The four raw pair counts of `_estimate_concordance_index` depend only on
the events, times and estimates, never on the weight vector. -/
theorem counts_weight_indep (event : List Bool) (time est w1 w2 : List ℚ)
    (tol : ℚ) (r1 r2 : ℚ × ℕ × ℕ × ℕ × ℕ)
    (hw1 : w1.length = est.length) (hw2 : w2.length = est.length)
    (h1 : estimate_concordance_index event time est w1 tol = .ok r1)
    (h2 : estimate_concordance_index event time est w2 tol = .ok r2) :
    r1.2 = r2.2 := by
  have key : ∀ (w : List ℚ) (r : ℚ × ℕ × ℕ × ℕ × ℕ), w.length = est.length →
      estimate_concordance_index event time est w tol = .ok r →
      r.2 = countsLoop tol (List.insertionSort leT3
        (event.zip (time.zip est))) := by
    intro w r hw hok
    simp only [estimate_concordance_index] at hok
    by_cases hden : (concordanceLoop tol (sortSamples
        (event.zip (time.zip (est.zip w))))).denominator = 0
    · rw [if_pos hden] at hok
      exact absurd hok (by simp)
    · rw [if_neg hden] at hok
      have hr := (Except.ok.inj hok).symm
      subst hr
      show ((concordanceLoop tol (sortSamples
          (event.zip (time.zip (est.zip w))))).concordant,
        (concordanceLoop tol (sortSamples
          (event.zip (time.zip (est.zip w))))).discordant,
        (concordanceLoop tol (sortSamples
          (event.zip (time.zip (est.zip w))))).tied_risk,
        (concordanceLoop tol (sortSamples
          (event.zip (time.zip (est.zip w))))).tied_time)
        = countsLoop tol (List.insertionSort leT3
            (event.zip (time.zip est)))
      rw [concordanceLoop_counts, sortSamples_strip3,
        map_strip3_zip4 event time est w hw]
  rw [key w1 r1 hw1 h1, key w2 r2 hw2 h2]

/-- C10: the four raw pair counts (concordant, discordant, tied_risk,
tied_time) returned by the shared concordance accumulation are identical
for any two weight vectors over the same events, times and estimates; in
particular, whenever both return, `concordance_index_ipcw` with `tau=None`
and `concordance_index_censored` report identical counts on the same test
data (only the index value differs). -/
theorem claim_C10 :
    (∀ (event : List Bool) (time est w1 w2 : List ℚ) (tol : ℚ)
      (r1 r2 : ℚ × ℕ × ℕ × ℕ × ℕ),
      w1.length = est.length → w2.length = est.length →
      estimate_concordance_index event time est w1 tol = .ok r1 →
      estimate_concordance_index event time est w2 tol = .ok r2 →
      r1.2 = r2.2) ∧
    (∀ (train_event : List Bool) (train_time : List ℚ)
      (test_event : List Bool) (test_time est : List ℚ) (tol : ℚ)
      (r1 r2 : ℚ × ℕ × ℕ × ℕ × ℕ),
      test_event.length = test_time.length →
      concordance_index_ipcw train_event train_time test_event test_time est
          none tol = .ok r1 →
      concordance_index_censored test_event test_time est tol = .ok r2 →
      r1.2 = r2.2) := by
  refine ⟨fun ev tm est w1 w2 tol r1 r2 hw1 hw2 h1 h2 =>
    counts_weight_indep ev tm est w1 w2 tol r1 r2 hw1 hw2 h1 h2, ?_⟩
  intro train_ev train_tm ev tm est tol r1 r2 hlen h1 h2
  -- peel the validation of concordance_index_censored
  simp only [concordance_index_censored] at h2
  by_cases c1 : ev.length ≠ tm.length ∨ tm.length ≠ est.length
  · rw [if_pos c1] at h2
    exact absurd h2 (by simp)
  rw [if_neg c1] at h2
  push_neg at c1
  by_cases c2 : tm.length < 2
  · rw [if_pos c2] at h2
    exact absurd h2 (by simp)
  rw [if_neg c2] at h2
  by_cases c3 : (!ev.any fun e => e) = true
  · rw [if_pos c3] at h2
    exact absurd h2 (by simp)
  rw [if_neg c3] at h2
  -- peel the validation of concordance_index_ipcw (tau = none)
  simp only [concordance_index_ipcw] at h1
  by_cases d1 : (!ev.any fun e => e) = true
  · rw [if_pos d1] at h1
    exact absurd h1 (by simp)
  rw [if_neg d1] at h1
  by_cases d2 : est.length ≠ tm.length
  · rw [if_pos d2] at h1
    exact absurd h1 (by simp)
  rw [if_neg d2] at h1
  push_neg at d2
  rcases hw : CensoringDistributionEstimator.predict_ipcw
      (CensoringDistributionEstimator.fit train_ev train_tm)
      ((ev.zip tm).map (fun p => p.1)) ((ev.zip tm).map (fun p => p.2))
    with e | ws
  · rw [hw] at h1
    exact absurd h1 (by simp)
  · rw [hw] at h1
    have h1e : estimate_concordance_index ev tm est
        (ws.map (fun x => x * x)) tol = .ok r1 := h1
    have hwslen : ws.length = ((ev.zip tm).map (fun p => p.1)).length := by
      unfold CensoringDistributionEstimator.predict_ipcw at hw
      by_cases e1 : (!((ev.zip tm).map (fun p => p.1)).any fun e => e) = true
      · rw [if_pos e1] at hw
        exact absurd hw (by simp)
      rw [if_neg e1] at hw
      rcases hpp : predict_proba
          (CensoringDistributionEstimator.fit train_ev train_tm)
          (eventTimes ((ev.zip tm).map (fun p => p.1))
            ((ev.zip tm).map (fun p => p.2))) with e2 | gs
      · rw [hpp] at hw
        exact absurd hw (by simp)
      · rw [hpp] at hw
        have hw2 : (if gs.any (fun g => g == 0) then
            (Except.error
              "censoring survival function is zero at one or more time points"
              : Except String (List ℚ))
          else Except.ok (fillWeights ((ev.zip tm).map (fun p => p.1)) gs))
            = Except.ok ws := hw
        by_cases e3 : gs.any (fun g => g == 0)
        · rw [if_pos e3] at hw2
          exact absurd hw2 (by simp)
        · rw [if_neg e3] at hw2
          rw [← Except.ok.inj hw2, fillWeights_length]
    have hwlen : (ws.map (fun x => x * x)).length = est.length := by
      rw [List.length_map, hwslen, List.length_map, List.length_zip, hlen,
        min_self]
      exact d2.symm
    have honeslen : (est.map (fun _ => (1 : ℚ))).length = est.length :=
      List.length_map _ _
    exact counts_weight_indep ev tm est (ws.map (fun x => x * x))
      (est.map (fun _ => (1 : ℚ))) tol r1 r2 hwlen honeslen h1e h2

/-- Witness for C10: two weight vectors on the same data give results with
different indexes possible but identical counts. -/
theorem claim_C10_witness :
    estimate_concordance_index [true, true] [1, 2] [2, 1] [1, 1]
        (1/100000000) = .ok (1, 1, 0, 0, 0) ∧
    estimate_concordance_index [true, true] [1, 2] [2, 1] [2, 3]
        (1/100000000) = .ok (1, 1, 0, 0, 0) ∧
    ((1 : ℚ), 1, 0, 0, 0).2 = ((1 : ℚ), 1, 0, 0, 0).2 := by
  have hA : estimate_concordance_index [true, true] [1, 2] [2, 1] [1, 1]
      (1/100000000) = .ok (1, 1, 0, 0, 0) := by
    have hloop : concordanceLoop (1/100000000)
        (sortSamples ([true, true].zip ([1, 2].zip
          (([2, 1] : List ℚ).zip ([1, 1] : List ℚ)))))
        = ⟨1, 1, 1, 0, 0, 0⟩ := by
      simp [sortSamples, List.insertionSort, List.orderedInsert, leTQ,
        concordanceLoop, s4time, s4est, s4w, nCon, nTies]
      norm_num
    simp only [estimate_concordance_index, hloop]
    norm_num
  have hB : estimate_concordance_index [true, true] [1, 2] [2, 1] [2, 3]
      (1/100000000) = .ok (1, 1, 0, 0, 0) := by
    have hloop : concordanceLoop (1/100000000)
        (sortSamples ([true, true].zip ([1, 2].zip
          (([2, 1] : List ℚ).zip ([2, 3] : List ℚ)))))
        = ⟨2, 2, 1, 0, 0, 0⟩ := by
      simp [sortSamples, List.insertionSort, List.orderedInsert, leTQ,
        concordanceLoop, s4time, s4est, s4w, nCon, nTies]
      norm_num
    simp only [estimate_concordance_index, hloop]
    norm_num
  exact ⟨hA, hB, claim_C10.1 [true, true] [1, 2] [2, 1] [1, 1] [2, 3]
    (1/100000000) (1, 1, 0, 0, 0) (1, 1, 0, 0, 0) (by decide) (by decide)
    hA hB⟩
